import Mathlib

set_option autoImplicit false

/-!
# Verification of the vuefire reference-extraction core

A shallow embedding of `src/firestore/utils.ts` (`extractRefs` and its inner
`recursiveExtract`, plus the subscription path index) and of
`src/database/utils.ts` (`createRecordFromDatabaseSnapshot`), together with
proofs about the claims of the specification.

JavaScript values are modelled by the mutual inductive family
`JSValue`/`JSElems`/`JSProps`, classified the way the walker's branch chain
classifies them.  Objects carry their enumerable properties (`fields`, in
insertion order) separately from their non-enumerable ones (`hidden`),
mirroring the descriptor-based handling in the source.  Arrays are lists of
slots where `hole` is a missing index.  Containers carry an allocation
identifier `id` so that object identity (`===`) can be stated; fresh
identifiers are threaded through the computation as a counter.  In-place
mutation of the partially built output (`data[key] = ...` in the source) is
modelled by threading the output value through the walk; the aliasing case
`oldDoc[key] || data[key]` where the old value *is* the container under
construction is modelled by the `al` flag, under which old-value reads go to
the accumulator, exactly at the program points where the source reads them.
-/

mutual
/-- JavaScript values as classified by `recursiveExtract`'s branch chain:
`vnull` covers `null`/`undefined` (the `ref == null` branch); `special`
covers `Date`, `Timestamp` and `GeoPoint` (opaque scalar-likes, copied
as-is); `ref` is a `DocumentReference` (target path plus optional custom
converter, converters named by numbers); `arr` and `obj` are containers;
`scalar` covers all remaining primitives (strings, numbers, booleans, and
anything the walker does not recognize), carrying their truthiness and a
literal. -/
inductive JSValue where
  | vnull
  | scalar (truthy : Bool) (lit : String)
  | special (tag : String)
  | ref (path : String) (converter : Option Nat)
  | arr (id : Nat) (elems : JSElems) (hidden : JSProps)
  | obj (id : Nat) (fields : JSProps) (hidden : JSProps)

/-- Array contents: a sequence of slots, each a `hole` or an element. -/
inductive JSElems where
  | nil
  | hole (rest : JSElems)
  | elem (v : JSValue) (rest : JSElems)

/-- An insertion-ordered property table. -/
inductive JSProps where
  | nil
  | prop (k : String) (v : JSValue) (rest : JSProps)
end

/-- A property address: a named field or an array index. -/
inductive Addr where
  | fld (k : String)
  | idx (i : Nat)
deriving DecidableEq

/-- The string form of an address, as used by the source to build subscription
keys (`path + key`; array indices are strings in the `for ... in` loop). -/
def addrStr : Addr → String
  | .fld k => k
  | .idx i => toString i

/-- A JavaScript string value (truthy unless empty). -/
def jsStr (s : String) : JSValue := .scalar (s != "") s

/-- JavaScript truthiness of a modelled value. -/
def truthy : JSValue → Bool
  | .vnull => false
  | .scalar t _ => t
  | .special _ => true
  | .ref _ _ => true
  | .arr _ _ _ => true
  | .obj _ _ _ => true

/-- Property-table lookup. -/
def lookupProp : JSProps → String → Option JSValue
  | .nil, _ => none
  | .prop k' v rest, k => if k' = k then some v else lookupProp rest k

/-- Property-table write: update the existing entry in place, or append a new
one (JS property creation order). -/
def writeProp : JSProps → String → JSValue → JSProps
  | .nil, k, v => .prop k v .nil
  | .prop k' v' rest, k, v =>
    if k' = k then .prop k v rest else .prop k' v' (writeProp rest k v)

/-- The keys of a property table, in order. -/
def propKeys : JSProps → List String
  | .nil => []
  | .prop k _ rest => k :: propKeys rest

/-- The element at index `i` (`none` for a hole or an out-of-range read). -/
def elemAt? : JSElems → Nat → Option JSValue
  | .nil, _ => none
  | .hole _, 0 => none
  | .elem v _, 0 => some v
  | .hole rest, n + 1 => elemAt? rest n
  | .elem _ rest, n + 1 => elemAt? rest n

/-- The length of an array's slot sequence. -/
def elemsLen : JSElems → Nat
  | .nil => 0
  | .hole rest => elemsLen rest + 1
  | .elem _ rest => elemsLen rest + 1

/-- Set slot `i` to `v` (padding with holes beyond the end, as JS would). -/
def writeElem : JSElems → Nat → JSValue → JSElems
  | .nil, 0, v => .elem v .nil
  | .nil, n + 1, v => .hole (writeElem .nil n v)
  | .hole rest, 0, v => .elem v rest
  | .elem _ rest, 0, v => .elem v rest
  | .hole rest, n + 1, v => .hole (writeElem rest n v)
  | .elem w rest, n + 1, v => .elem w (writeElem rest n v)

/-- The canonical array index denoted by a string, if any: JS treats a string
property of an array as an index only when it is the canonical decimal
numeral of that index. -/
def canonIdx? (k : String) : Option Nat :=
  match k.toNat? with
  | some i => if toString i = k then some i else none
  | none => none

/-- Lookup in an ordered association list keyed by strings (used for the
`subs` registry, the subscription path index and the `refs` output). -/
def lookupAssoc {α : Type} : List (String × α) → String → Option α
  | [], _ => none
  | (k', v) :: rest, k => if k' = k then some v else lookupAssoc rest k

/-- Write to an ordered association list: update in place or append. -/
def setAssoc {α : Type} : List (String × α) → String → α → List (String × α)
  | [], k, v => [(k, v)]
  | (k', v') :: rest, k, v =>
    if k' = k then (k, v) :: rest else (k', v') :: setAssoc rest k v

/-- Whether `k in l` holds. -/
def hasKey {α : Type} (l : List (String × α)) (k : String) : Bool :=
  (lookupAssoc l k).isSome

/-- JS property read `v[a]` (returning `vnull` for `undefined`): objects look
up enumerable then non-enumerable properties; arrays look up elements by
index (holes and out-of-range reads are `undefined`) and named non-enumerable
properties otherwise; a document reference exposes its `path`; every other
read is `undefined`.  (String character indexing is not modelled.) -/
def getPropA : JSValue → Addr → JSValue
  | .obj _ fs hs, a =>
    (match lookupProp fs (addrStr a) with
     | some v => v
     | none => (lookupProp hs (addrStr a)).getD .vnull)
  | .arr _ es hs, a =>
    (match a with
     | .idx i => (elemAt? es i).getD .vnull
     | .fld k =>
       (match canonIdx? k with
        | some i => (elemAt? es i).getD .vnull
        | none => (lookupProp hs k).getD .vnull))
  | .ref p _, a => if addrStr a = "path" then jsStr p else .vnull
  | _, _ => .vnull

/-- JS property write `v[a] = w` as performed by the walker on the output
under construction (objects gain/update enumerable properties; arrays are
written at indices).  Writes the walker never performs (named array
properties, writes to non-containers) are dropped. -/
def setPropA : JSValue → Addr → JSValue → JSValue
  | .obj id fs hs, a, w => .obj id (writeProp fs (addrStr a) w) hs
  | .arr id es hs, a, w =>
    (match a with
     | .idx i => .arr id (writeElem es i w) hs
     | .fld k =>
       (match canonIdx? k with
        | some i => .arr id (writeElem es i w) hs
        | none => .arr id es hs))
  | v, _, _ => v

/-- The non-enumerable own properties of a value (empty for non-containers). -/
def hiddenOf : JSValue → JSProps
  | .arr _ _ hs => hs
  | .obj _ _ hs => hs
  | _ => .nil

/-- The enumerable named fields of a value (empty for non-objects). -/
def fieldsOf : JSValue → JSProps
  | .obj _ fs _ => fs
  | _ => .nil

/-- The element slots of a value (empty for non-arrays). -/
def elemsOf : JSValue → JSElems
  | .arr _ es _ => es
  | _ => .nil

/-- The allocation identifier of a container (`0` for non-containers). -/
def idOf : JSValue → Nat
  | .arr i _ _ => i
  | .obj i _ _ => i
  | _ => 0

/-- Copy a list of property descriptors verbatim onto a value's
non-enumerable properties, in order (`Object.defineProperty` per own
non-enumerable property name, source lines 72-77). -/
def addHidden : JSValue → JSProps → JSValue
  | v, .nil => v
  | .obj id fs h, .prop k w rest => addHidden (.obj id fs (writeProp h k w)) rest
  | .arr id es h, .prop k w rest => addHidden (.arr id es (writeProp h k w)) rest
  | v, _ => v

/-- The value of `x.path` used as a lookup key by the array fast path
(`newRef.path in subsByPath`): a reference's target path, or a `path`
property holding a string.  A missing or non-string `path` yields no key. -/
def pathKey? : JSValue → Option String
  | .ref p _ => some p
  | .obj _ fs hs =>
    (match (match lookupProp fs "path" with
            | some v => some v
            | none => lookupProp hs "path") with
     | some (.scalar _ s) => some s
     | _ => none)
  | .arr _ _ hs =>
    (match lookupProp hs "path" with
     | some (.scalar _ s) => some s
     | _ => none)
  | _ => none

/-- A registered subscription entry: a store path and the last resolved value
its `data()` thunk returns (`vnull` models a `null` result). -/
structure SubEntry where
  path : String
  data : JSValue

/-- A document reference as recorded in the output `refs` map, after the
converter defaulting of source lines 104-108. -/
structure StoredRef where
  path : String
  converter : Option Nat

/-- The caller-supplied options; only the default converter is relevant. -/
structure ExtractOptions where
  converter : Nat

/-- The mutable state of one extraction: the output value under construction,
the `refs` map, and the next fresh allocation identifier. -/
structure WalkState where
  data : JSValue
  refs : List (String × StoredRef)
  nid : Nat

/-- The Subscription Path Index: `subsByPath` of the source (lines 55-59),
built by reducing over the registry entries in insertion order, keying each
entry's `data()` result by its `path` (a later entry overwrites an earlier
one sharing its path). -/
def subsByPath (subs : List (String × SubEntry)) : List (String × JSValue) :=
  subs.foldl (fun acc kv => setAssoc acc kv.2.path kv.2.data) []

/-- The array fast path (source lines 110-117): over an output of the same
length, fill each slot whose element is truthy and whose `path` is a key of
the Subscription Path Index with that path's resolved value; every other
slot is left a hole. -/
def fastFill (sbp : List (String × JSValue)) : JSElems → JSElems
  | .nil => .nil
  | .hole rest => .hole (fastFill sbp rest)
  | .elem e rest =>
    (if truthy e then
      match pathKey? e with
      | some p =>
        (match lookupAssoc sbp p with
         | some d => JSElems.elem d (fastFill sbp rest)
         | none => JSElems.hole (fastFill sbp rest))
      | none => JSElems.hole (fastFill sbp rest)
     else JSElems.hole (fastFill sbp rest))

mutual
/-- The `for ... in` loop of `recursiveExtract` over an object's enumerable
fields, in insertion order. -/
def walkProps (subs : List (String × SubEntry)) (sbp : List (String × JSValue))
    (opts : ExtractOptions) :
    JSProps → JSValue → Bool → String → WalkState → WalkState
  | .nil, _, _, _, st => st
  | .prop k v rest, old, al, path, st =>
    walkProps subs sbp opts rest old al path
      (walkVal subs sbp opts (Addr.fld k) v old al path st)

/-- The `for ... in` loop of `recursiveExtract` over an array's slots: holes
are skipped, elements are visited with their index as the key. -/
def walkElems (subs : List (String × SubEntry)) (sbp : List (String × JSValue))
    (opts : ExtractOptions) :
    Nat → JSElems → JSValue → Bool → String → WalkState → WalkState
  | _, .nil, _, _, _, st => st
  | i, .hole rest, old, al, path, st =>
    walkElems subs sbp opts (i + 1) rest old al path st
  | i, .elem v rest, old, al, path, st =>
    walkElems subs sbp opts (i + 1) rest old al path
      (walkVal subs sbp opts (Addr.idx i) v old al path st)

/-- One iteration of `recursiveExtract`'s loop body (source lines 80-130):
classify the entry value and update `data`/`refs`.  `oldVal` is the source's
`oldDoc[key]`, read from the accumulator when the old document aliases it
(`al`), at the same program point as the source reads it.  A reference entry
writes the old value (when its subscription key is registered) or the
reference's path string, and records the (converter-defaulted) reference
under its subscription key.  An array entry allocates a same-length output,
runs the fast path, and recurses with `oldDoc[key] || data[key]` as the old
value — the freshly allocated output itself, hence aliasing, when
`oldDoc[key]` is falsy.  An object entry allocates a fresh empty object and
recurses.  Both container branches first copy the non-enumerable properties
of the entry value onto the fresh container, as the recursive call does at
lines 72-77. -/
def walkVal (subs : List (String × SubEntry)) (sbp : List (String × JSValue))
    (opts : ExtractOptions) (a : Addr) (v : JSValue) (old : JSValue) (al : Bool)
    (path : String) (st : WalkState) : WalkState :=
  let oldVal := if al then getPropA st.data a else getPropA old a
  match v with
  | .vnull => ⟨setPropA st.data a .vnull, st.refs, st.nid⟩
  | .special s => ⟨setPropA st.data a (.special s), st.refs, st.nid⟩
  | .scalar t s => ⟨setPropA st.data a (.scalar t s), st.refs, st.nid⟩
  | .ref p conv =>
    let subKey := path ++ addrStr a
    let nv := if hasKey subs subKey then oldVal else jsStr p
    ⟨setPropA st.data a nv,
     setAssoc st.refs subKey ⟨p, some (conv.getD opts.converter)⟩, st.nid⟩
  | .arr _ es hs =>
    let child0 := addHidden (.arr st.nid (fastFill sbp es) .nil) hs
    let st1 := walkElems subs sbp opts 0 es oldVal (al || !truthy oldVal)
      (path ++ addrStr a ++ ".") ⟨child0, st.refs, st.nid + 1⟩
    ⟨setPropA st.data a st1.data, st1.refs, st1.nid⟩
  | .obj _ fs hs =>
    let child0 := addHidden (.obj st.nid .nil .nil) hs
    let st1 := walkProps subs sbp opts fs oldVal al
      (path ++ addrStr a ++ ".") ⟨child0, st.refs, st.nid + 1⟩
    ⟨setPropA st.data a st1.data, st1.refs, st1.nid⟩
end

/-- Modelled from the spec: `isPOJO` from the shared utility module (not
under `src/`), the Plain-Object Classifier's test for a decomposable
structured value — true exactly for plain objects. -/
def isPOJO : JSValue → Bool
  | .obj _ _ _ => true
  | _ => false

/-- `extractRefs` (source lines 41-136): for a non-plain-object input return
it unchanged with an empty `refs` map; otherwise build the Subscription Path
Index once, copy the input's non-enumerable properties onto a fresh output
object, and walk the input's fields with the empty path.  `nid` is the next
fresh allocation identifier; `old` is `oldDoc` (`vnull` models an absent old
document). -/
def extractRefs (doc old : JSValue) (subs : List (String × SubEntry))
    (opts : ExtractOptions) (nid : Nat) : WalkState :=
  if isPOJO doc then
    walkProps subs (subsByPath subs) opts (fieldsOf doc) old false ""
      ⟨addHidden (.obj nid .nil .nil) (hiddenOf doc), [], nid + 1⟩
  else ⟨doc, [], nid⟩

mutual
/-- Structural equality of values up to allocation identifiers ("deep
equality", the value-level identity the spec's idempotence talks about). -/
def deepEq : JSValue → JSValue → Bool
  | .vnull, .vnull => true
  | .scalar t s, .scalar t' s' => t == t' && s == s'
  | .special s, .special s' => s == s'
  | .ref p c, .ref p' c' => p == p' && c == c'
  | .arr _ es hs, .arr _ es' hs' => deepEqE es es' && deepEqP hs hs'
  | .obj _ fs hs, .obj _ fs' hs' => deepEqP fs fs' && deepEqP hs hs'
  | _, _ => false

/-- Deep equality of array slots (holes match holes, positions aligned). -/
def deepEqE : JSElems → JSElems → Bool
  | .nil, .nil => true
  | .hole r, .hole r' => deepEqE r r'
  | .elem v r, .elem v' r' => deepEq v v' && deepEqE r r'
  | _, _ => false

/-- Deep equality of property tables (same keys in the same order). -/
def deepEqP : JSProps → JSProps → Bool
  | .nil, .nil => true
  | .prop k v r, .prop k' v' r' => k == k' && deepEq v v' && deepEqP r r'
  | _, _ => false
end

mutual
/-- No raw document reference anywhere in the value, including inside
non-enumerable properties. -/
def refFree : JSValue → Bool
  | .vnull => true
  | .scalar _ _ => true
  | .special _ => true
  | .ref _ _ => false
  | .arr _ es hs => refFreeE es && refFreeP hs
  | .obj _ fs hs => refFreeP fs && refFreeP hs

/-- `refFree` over array slots. -/
def refFreeE : JSElems → Bool
  | .nil => true
  | .hole r => refFreeE r
  | .elem v r => refFree v && refFreeE r

/-- `refFree` over property tables. -/
def refFreeP : JSProps → Bool
  | .nil => true
  | .prop _ v r => refFree v && refFreeP r
end

mutual
/-- The non-enumerable properties of every container reachable through
enumerable fields and array elements hold reference-free values (references
in *enumerable* positions are still allowed). -/
def hClean : JSValue → Bool
  | .arr _ es hs => refFreeP hs && hCleanE es
  | .obj _ fs hs => refFreeP hs && hCleanP fs
  | _ => true

/-- `hClean` over array slots. -/
def hCleanE : JSElems → Bool
  | .nil => true
  | .hole r => hCleanE r
  | .elem v r => hClean v && hCleanE r

/-- `hClean` over property tables. -/
def hCleanP : JSProps → Bool
  | .nil => true
  | .prop _ v r => hClean v && hCleanP r
end

/-- Whether a property table lacks key `k`. -/
def freshKey : JSProps → String → Bool
  | .nil, _ => true
  | .prop k' _ rest, k => (k' != k) && freshKey rest k

/-- Whether a property table has pairwise-distinct keys (automatic for real
JS objects, whose property tables are maps). -/
def nodupProps : JSProps → Bool
  | .nil => true
  | .prop k _ rest => freshKey rest k && nodupProps rest

mutual
/-- Well-formedness as a JS value: every container reachable through
enumerable fields and array elements has duplicate-free enumerable and
non-enumerable key sets.  Automatic for values decoded from a real store. -/
def wfJS : JSValue → Bool
  | .arr _ es hs => nodupProps hs && wfE es
  | .obj _ fs hs => nodupProps fs && nodupProps hs && wfP fs
  | _ => true

/-- `wfJS` over array slots. -/
def wfE : JSElems → Bool
  | .nil => true
  | .hole r => wfE r
  | .elem v r => wfJS v && wfE r

/-- `wfJS` over property tables. -/
def wfP : JSProps → Bool
  | .nil => true
  | .prop _ v r => wfJS v && wfP r
end

/-- Concatenation of property tables. -/
def propsAppend : JSProps → JSProps → JSProps
  | .nil, Q => Q
  | .prop k v r, Q => .prop k v (propsAppend r Q)

/-- Slot-wise deep equality between an input slot and an output slot:
holes match holes, elements match up to `deepEq`. -/
def slotEq : Option JSValue → Option JSValue → Bool
  | none, none => true
  | some v, some w => deepEq w v
  | _, _ => false

/-! ## The realtime-database snapshot normalizer (`src/database/utils.ts`) -/

/-- A realtime-database `DataSnapshot` as the normalizer observes it:
whether the target exists, the decoded value, and the four metadata
attributes. -/
structure DataSnapshot where
  present : Bool
  val : JSValue
  key : JSValue
  priority : JSValue
  ref : JSValue
  size : JSValue

/-- The shared `isObject` classifier as it applies to decoded snapshot
values: a non-null value of object type.  Database snapshot values are JSON
trees, so containers are exactly objects and arrays. -/
def isObjectJS : JSValue → Bool
  | .obj _ _ _ => true
  | .arr _ _ _ => true
  | _ => false

/-- The four reserved metadata properties attached by the normalizer. -/
def metaProps (s : DataSnapshot) : JSProps :=
  .prop ".key" s.key (.prop ".priority" s.priority
    (.prop ".ref" s.ref (.prop ".size" s.size .nil)))

/-- `createRecordFromDatabaseSnapshot` (source lines 11-34): `none` for an
absent snapshot; a container value is decorated in place with the four
metadata fields as read-only non-enumerable properties; a scalar value is
wrapped in a fresh object exposing it under `$value` together with the same
four metadata fields as ordinary enumerable properties.  `nid` is the
allocation identifier for the wrapper in the scalar case. -/
def createRecordFromDatabaseSnapshot (s : DataSnapshot) (nid : Nat) :
    Option JSValue :=
  if !s.present then none
  else if isObjectJS s.val then some (addHidden s.val (metaProps s))
  else some (.obj nid (.prop "$value" s.val (metaProps s)) .nil)

/-! ## Basic lemmas about the property-table and slot operations -/

/-- Single-motive structural induction for property tables (the value at a
property is not recursed into). -/
theorem propsInd (motive : JSProps → Prop) (nil : motive .nil)
    (prop : ∀ k v r, motive r → motive (.prop k v r)) : ∀ P, motive P
  | .nil => nil
  | .prop k v r => prop k v r (propsInd motive nil prop r)

/-- Single-motive structural induction for slot sequences. -/
theorem elemsInd (motive : JSElems → Prop) (nil : motive .nil)
    (hole : ∀ r, motive r → motive (.hole r))
    (elem : ∀ v r, motive r → motive (.elem v r)) : ∀ E, motive E
  | .nil => nil
  | .hole r => hole r (elemsInd motive nil hole elem r)
  | .elem v r => elem v r (elemsInd motive nil hole elem r)

theorem lookupProp_writeProp_self (fs : JSProps) (k : String) (v : JSValue) :
    lookupProp (writeProp fs k v) k = some v := by
  induction fs using propsInd with
  | nil => simp [writeProp, lookupProp]
  | prop k' v' rest ih =>
    by_cases h : k' = k <;> simp [writeProp, lookupProp, h, ih]

theorem lookupProp_writeProp_ne (fs : JSProps) (k' k : String) (v : JSValue)
    (h : k' ≠ k) : lookupProp (writeProp fs k' v) k = lookupProp fs k := by
  induction fs using propsInd with
  | nil => simp [writeProp, lookupProp, h]
  | prop k'' v'' rest ih =>
    by_cases h2 : k'' = k'
    · subst h2; simp [writeProp, lookupProp, h]
    · simp [writeProp, h2]
      by_cases h3 : k'' = k <;> simp [lookupProp, h3, ih]

theorem elemAt?_writeElem_self (es : JSElems) (i : Nat) (v : JSValue) :
    elemAt? (writeElem es i v) i = some v := by
  induction es using elemsInd generalizing i with
  | nil =>
    induction i with
    | zero => simp [writeElem, elemAt?]
    | succ n ihn => simp [writeElem, elemAt?, ihn]
  | hole rest ih => cases i <;> simp [writeElem, elemAt?, ih]
  | elem w rest ih => cases i <;> simp [writeElem, elemAt?, ih]

theorem elemAt?_writeElem_ne (es : JSElems) (i j : Nat) (v : JSValue)
    (h : i ≠ j) : elemAt? (writeElem es j v) i = elemAt? es i := by
  induction es using elemsInd generalizing i j with
  | nil =>
    induction j generalizing i with
    | zero => cases i with
      | zero => exact absurd rfl h
      | succ m => simp [writeElem, elemAt?]
    | succ n ihn => cases i with
      | zero => simp [writeElem, elemAt?]
      | succ m => simpa [writeElem, elemAt?] using ihn m (by omega)
  | hole rest ih =>
    cases j with
    | zero => cases i with
      | zero => exact absurd rfl h
      | succ m => simp [writeElem, elemAt?]
    | succ n => cases i with
      | zero => simp [writeElem, elemAt?]
      | succ m => simpa [writeElem, elemAt?] using ih m n (by omega)
  | elem w rest ih =>
    cases j with
    | zero => cases i with
      | zero => exact absurd rfl h
      | succ m => simp [writeElem, elemAt?]
    | succ n => cases i with
      | zero => simp [writeElem, elemAt?]
      | succ m => simpa [writeElem, elemAt?] using ih m n (by omega)

theorem elemsLen_writeElem (es : JSElems) (j : Nat) (v : JSValue)
    (h : j < elemsLen es) : elemsLen (writeElem es j v) = elemsLen es := by
  induction es using elemsInd generalizing j with
  | nil => simp [elemsLen] at h
  | hole rest ih => cases j with
    | zero => simp [writeElem, elemsLen]
    | succ n => simp [elemsLen] at h; simp [writeElem, elemsLen, ih n (by omega)]
  | elem w rest ih => cases j with
    | zero => simp [writeElem, elemsLen]
    | succ n => simp [elemsLen] at h; simp [writeElem, elemsLen, ih n (by omega)]

theorem elemsLen_fastFill (sbp : List (String × JSValue)) (es : JSElems) :
    elemsLen (fastFill sbp es) = elemsLen es := by
  induction es using elemsInd with
  | nil => simp [fastFill, elemsLen]
  | hole rest ih => simp [fastFill, elemsLen, ih]
  | elem v rest ih =>
    by_cases h : truthy v
    · simp only [fastFill, h, if_pos]
      cases hp : pathKey? v with
      | none => simp [elemsLen, ih]
      | some p => cases hq : lookupAssoc sbp p <;> simp [hq, elemsLen, ih]
    · simp [fastFill, h, elemsLen, ih]

/-- The value the fast path leaves at a slot whose element is truthy and
whose `path` is a key of the index. -/
theorem fastFill_at (sbp : List (String × JSValue)) (es : JSElems) (i : Nat)
    (e : JSValue) (p : String) (d : JSValue)
    (he : elemAt? es i = some e) (ht : truthy e = true)
    (hp : pathKey? e = some p) (hd : lookupAssoc sbp p = some d) :
    elemAt? (fastFill sbp es) i = some d := by
  induction es using elemsInd generalizing i with
  | nil => simp [elemAt?] at he
  | hole rest ih =>
    cases i with
    | zero => simp [elemAt?] at he
    | succ n => simp only [elemAt?] at he; simpa [fastFill, elemAt?] using ih n he
  | elem v rest ih =>
    cases i with
    | zero =>
      simp only [elemAt?, Option.some.injEq] at he
      subst he
      simp [fastFill, ht, hp, hd, elemAt?]
    | succ n =>
      simp only [elemAt?] at he
      by_cases h : truthy v
      · simp only [fastFill, h, if_pos]
        cases hq : pathKey? v with
        | none => simpa [elemAt?] using ih n he
        | some q => cases hr : lookupAssoc sbp q <;> simp [hr, elemAt?] <;> exact ih n he
      · simpa [fastFill, h, elemAt?] using ih n he

/-- The holes of the fast-path output: a slot not filled from the index is a
hole. -/
theorem fastFill_nilIndex (es : JSElems) (i : Nat) :
    elemAt? (fastFill [] es) i = none := by
  induction es using elemsInd generalizing i with
  | nil => simp [fastFill, elemAt?]
  | hole rest ih => cases i <;> simp [fastFill, elemAt?, ih]
  | elem v rest ih =>
    by_cases h : truthy v
    · simp only [fastFill, h, if_pos]
      cases hp : pathKey? v with
      | none => cases i <;> simp [elemAt?, ih]
      | some p => simp [lookupAssoc]; cases i <;> simp [elemAt?, ih]
    · simp only [fastFill, h, if_neg, Bool.false_eq_true, not_false_iff]
      cases i <;> simp [elemAt?, ih]

theorem lookupAssoc_setAssoc_self {α : Type} (l : List (String × α)) (k : String) (v : α) :
    lookupAssoc (setAssoc l k v) k = some v := by
  induction l with
  | nil => simp [setAssoc, lookupAssoc]
  | cons kv rest ih =>
    by_cases h : kv.1 = k <;> simp [setAssoc, lookupAssoc, h, ih]

theorem propsAppend_nil (P : JSProps) : propsAppend P .nil = P := by
  induction P using propsInd with
  | nil => rfl
  | prop k v r ih => simp [propsAppend, ih]

theorem lookupAssoc_setAssoc_ne {α : Type} (l : List (String × α)) (k' k : String) (v : α)
    (h : k' ≠ k) : lookupAssoc (setAssoc l k' v) k = lookupAssoc l k := by
  induction l with
  | nil => simp [setAssoc, lookupAssoc, h]
  | cons kv rest ih =>
    by_cases h2 : kv.1 = k'
    · have hne : kv.1 ≠ k := by rw [h2]; exact h
      simp [setAssoc, h2, lookupAssoc, h, hne]
    · by_cases h3 : kv.1 = k
      · have hne2 : k ≠ k' := Ne.symm h
        simp [setAssoc, h2, lookupAssoc, h3, hne2]
      · simp [setAssoc, h2, lookupAssoc, h3, ih]

theorem lookupProp_propsAppend (P Q : JSProps) (k : String) :
    lookupProp (propsAppend P Q) k =
      (match lookupProp P k with
       | some v => some v
       | none => lookupProp Q k) := by
  induction P using propsInd with
  | nil => simp [propsAppend, lookupProp]
  | prop k' v r ih => by_cases h : k' = k <;> simp [propsAppend, lookupProp, h, ih]

theorem propsAppend_assoc (P Q R : JSProps) :
    propsAppend (propsAppend P Q) R = propsAppend P (propsAppend Q R) := by
  induction P using propsInd with
  | nil => simp [propsAppend]
  | prop k v r ih => simp [propsAppend, ih]

theorem writeProp_fresh (P : JSProps) (k : String) (v : JSValue)
    (h : lookupProp P k = none) :
    writeProp P k v = propsAppend P (.prop k v .nil) := by
  induction P using propsInd with
  | nil => simp [writeProp, propsAppend]
  | prop k' v' r ih =>
    simp only [lookupProp] at h
    by_cases h2 : k' = k
    · simp [h2] at h
    · simp [h2] at h
      simp [writeProp, h2, propsAppend, ih h]

/-- `addHidden` on an object: fields, identifier and pre-existing hidden
properties are preserved; fresh descriptors with duplicate-free keys are
appended in order. -/
theorem addHidden_obj (hs : JSProps) : ∀ (id : Nat) (fs h : JSProps),
    nodupProps hs = true → (∀ k ∈ propKeys hs, lookupProp h k = none) →
    addHidden (.obj id fs h) hs = .obj id fs (propsAppend h hs) := by
  induction hs using propsInd with
  | nil => intro id fs h _ _; simp [addHidden, propsAppend_nil]
  | prop k v r ih =>
    intro id fs h hnd hfresh
    simp only [nodupProps, Bool.and_eq_true] at hnd
    have hk : lookupProp h k = none := hfresh k (by simp [propKeys])
    have step : addHidden (.obj id fs h) (.prop k v r) =
        addHidden (.obj id fs (writeProp h k v)) r := rfl
    rw [step, ih id fs (writeProp h k v) hnd.2]
    · rw [writeProp_fresh h k v hk, propsAppend_assoc]
      simp [propsAppend]
    · intro k' hk'
      rw [writeProp_fresh h k v hk, lookupProp_propsAppend]
      have hne : k ≠ k' := by
        have := hnd.1
        -- freshKey r k is true and k' ∈ propKeys r
        intro he; subst he
        -- freshness of k within r contradicts membership
        clear ih step hfresh hnd
        induction r using propsInd with
        | nil => simp [propKeys] at hk'
        | prop k2 v2 r2 ih2 =>
          simp only [freshKey, Bool.and_eq_true] at this
          simp only [propKeys, List.mem_cons] at hk'
          rcases hk' with h3 | h3
          · subst h3; simp [bne_iff_ne] at this
          · exact ih2 this.2 h3
      rw [hfresh k' (by simp [propKeys, hk'])]
      simp [lookupProp, hne]

/-- `addHidden` on an array: elements, identifier and pre-existing hidden
properties are preserved; fresh descriptors are appended. -/
theorem addHidden_arr (hs : JSProps) : ∀ (id : Nat) (es : JSElems) (h : JSProps),
    nodupProps hs = true → (∀ k ∈ propKeys hs, lookupProp h k = none) →
    addHidden (.arr id es h) hs = .arr id es (propsAppend h hs) := by
  induction hs using propsInd with
  | nil => intro id es h _ _; simp [addHidden, propsAppend_nil]
  | prop k v r ih =>
    intro id es h hnd hfresh
    simp only [nodupProps, Bool.and_eq_true] at hnd
    have hk : lookupProp h k = none := hfresh k (by simp [propKeys])
    have step : addHidden (.arr id es h) (.prop k v r) =
        addHidden (.arr id es (writeProp h k v)) r := rfl
    rw [step, ih id es (writeProp h k v) hnd.2]
    · rw [writeProp_fresh h k v hk, propsAppend_assoc]
      simp [propsAppend]
    · intro k' hk'
      rw [writeProp_fresh h k v hk, lookupProp_propsAppend]
      have hne : k ≠ k' := by
        have := hnd.1
        intro he; subst he
        clear ih step hfresh hnd
        induction r using propsInd with
        | nil => simp [propKeys] at hk'
        | prop k2 v2 r2 ih2 =>
          simp only [freshKey, Bool.and_eq_true] at this
          simp only [propKeys, List.mem_cons] at hk'
          rcases hk' with h3 | h3
          · subst h3; simp [bne_iff_ne] at this
          · exact ih2 this.2 h3
      rw [hfresh k' (by simp [propKeys, hk'])]
      simp [lookupProp, hne]

/-- A weaker form without freshness hypotheses: `addHidden` never touches an
array's identifier or elements. -/
theorem addHidden_arr_shape (hs : JSProps) : ∀ (id : Nat) (es : JSElems) (h : JSProps),
    ∃ h', addHidden (.arr id es h) hs = .arr id es h' := by
  induction hs using propsInd with
  | nil => intro id es h; exact ⟨h, rfl⟩
  | prop k v r ih => intro id es h; exact ih id es (writeProp h k v)

/-- `addHidden` never touches an object's identifier or fields. -/
theorem addHidden_obj_shape (hs : JSProps) : ∀ (id : Nat) (fs h : JSProps),
    ∃ h', addHidden (.obj id fs h) hs = .obj id fs h' := by
  induction hs using propsInd with
  | nil => intro id fs h; exact ⟨h, rfl⟩
  | prop k v r ih => intro id fs h; exact ih id fs (writeProp h k v)

/-- Every branch of the loop body writes exactly one property of the output:
the result's `data` is `setPropA st.data a w` for some `w`. -/
theorem walkVal_data_shape (subs : List (String × SubEntry))
    (sbp : List (String × JSValue)) (opts : ExtractOptions) (a : Addr)
    (v old : JSValue) (al : Bool) (path : String) (st : WalkState) :
    ∃ w, (walkVal subs sbp opts a v old al path st).data = setPropA st.data a w := by
  cases v with
  | vnull => exact ⟨.vnull, rfl⟩
  | scalar t s => exact ⟨.scalar t s, rfl⟩
  | special s => exact ⟨.special s, rfl⟩
  | ref p conv => exact ⟨_, rfl⟩
  | arr id es hs => exact ⟨_, rfl⟩
  | obj id fs hs => exact ⟨_, rfl⟩

/-- Walking an object's entries over an object-shaped accumulator: the
identifier and the non-enumerable properties are untouched, and any field
whose key is not among the walked keys keeps its value (the loop writes only
the keys it visits). -/
theorem walkProps_obj_frame (subs : List (String × SubEntry))
    (sbp : List (String × JSValue)) (opts : ExtractOptions) (fs : JSProps) :
    ∀ (old : JSValue) (al : Bool) (path : String) (id : Nat) (F H : JSProps)
      (refs : List (String × StoredRef)) (nid : Nat),
    ∃ F', (walkProps subs sbp opts fs old al path ⟨.obj id F H, refs, nid⟩).data
        = .obj id F' H ∧
      ∀ κ, κ ∉ propKeys fs → lookupProp F' κ = lookupProp F κ := by
  induction fs using propsInd with
  | nil => intro old al path id F H refs nid; exact ⟨F, rfl, fun κ _ => rfl⟩
  | prop k v rest ih =>
    intro old al path id F H refs nid
    obtain ⟨w, hw⟩ := walkVal_data_shape subs sbp opts (.fld k) v old al path
      ⟨.obj id F H, refs, nid⟩
    rcases hst : walkVal subs sbp opts (.fld k) v old al path ⟨.obj id F H, refs, nid⟩
      with ⟨d1, r1, n1⟩
    rw [hst] at hw
    simp only [setPropA, addrStr] at hw
    obtain ⟨F', hF1, hF2⟩ := ih old al path id (writeProp F k w) H r1 n1
    refine ⟨F', ?_, ?_⟩
    · show (walkProps subs sbp opts rest old al path
        (walkVal subs sbp opts (.fld k) v old al path ⟨.obj id F H, refs, nid⟩)).data
        = .obj id F' H
      rw [hst, hw]
      exact hF1
    · intro κ hκ
      simp only [propKeys, List.mem_cons, not_or] at hκ
      rw [hF2 κ hκ.2]
      exact lookupProp_writeProp_ne F k κ w (fun he => hκ.1 he.symm)

/-- Walking an array's slots over an array-shaped accumulator, starting at
index `i`: the identifier and non-enumerable properties are untouched;
positions below the window and positions whose input slot is a hole keep
their accumulator value; the length is preserved when the window fits; and a
slot holding a reference ends up with the old value at that position (read
from the accumulator itself when aliased) if its subscription key is
registered, and with the reference's path string otherwise. -/
theorem walkElems_arr_char (subs : List (String × SubEntry))
    (sbp : List (String × JSValue)) (opts : ExtractOptions) (esW : JSElems) :
    ∀ (i : Nat) (old : JSValue) (al : Bool) (path : String) (id : Nat)
      (E : JSElems) (H : JSProps) (refs : List (String × StoredRef)) (nid : Nat),
    ∃ E', (walkElems subs sbp opts i esW old al path ⟨.arr id E H, refs, nid⟩).data
        = .arr id E' H ∧
      (∀ m, m < i → elemAt? E' m = elemAt? E m) ∧
      (i + elemsLen esW ≤ elemsLen E → elemsLen E' = elemsLen E) ∧
      (∀ j, elemAt? esW j = none → elemAt? E' (i + j) = elemAt? E (i + j)) ∧
      (∀ j p c, elemAt? esW j = some (.ref p c) →
        elemAt? E' (i + j) =
          some (if hasKey subs (path ++ toString (i + j))
                then (if al then (elemAt? E (i + j)).getD .vnull
                      else getPropA old (.idx (i + j)))
                else jsStr p)) := by
  induction esW using elemsInd with
  | nil =>
    intro i old al path id E H refs nid
    refine ⟨E, rfl, fun m _ => rfl, fun _ => rfl, fun j _ => rfl, fun j p c hj => ?_⟩
    simp [elemAt?] at hj
  | hole rest ih =>
    intro i old al path id E H refs nid
    obtain ⟨E', h1, h2, h3, h4, h5⟩ := ih (i + 1) old al path id E H refs nid
    refine ⟨E', h1, fun m hm => h2 m (by omega), ?_, ?_, ?_⟩
    · intro hlen
      simp only [elemsLen] at hlen
      exact h3 (by omega)
    · intro j hj
      cases j with
      | zero => exact h2 i (by omega)
      | succ n =>
        simp only [elemAt?] at hj
        have := h4 n hj
        have harith : i + 1 + n = i + (n + 1) := by omega
        rwa [harith] at this
    · intro j p c hj
      cases j with
      | zero => simp [elemAt?] at hj
      | succ n =>
        simp only [elemAt?] at hj
        have := h5 n p c hj
        have harith : i + 1 + n = i + (n + 1) := by omega
        rwa [harith] at this
  | elem v rest ih =>
    intro i old al path id E H refs nid
    obtain ⟨w, hw⟩ := walkVal_data_shape subs sbp opts (.idx i) v old al path
      ⟨.arr id E H, refs, nid⟩
    rcases hst : walkVal subs sbp opts (.idx i) v old al path ⟨.arr id E H, refs, nid⟩
      with ⟨d1, r1, n1⟩
    rw [hst] at hw
    simp only [setPropA] at hw
    obtain ⟨E', h1, h2, h3, h4, h5⟩ := ih (i + 1) old al path id (writeElem E i w) H r1 n1
    have hstep : walkElems subs sbp opts i (.elem v rest) old al path ⟨.arr id E H, refs, nid⟩
        = walkElems subs sbp opts (i + 1) rest old al path
            (walkVal subs sbp opts (.idx i) v old al path ⟨.arr id E H, refs, nid⟩) := rfl
    refine ⟨E', ?_, ?_, ?_, ?_, ?_⟩
    · rw [hstep, hst, hw]; exact h1
    · intro m hm
      rw [h2 m (by omega)]
      exact elemAt?_writeElem_ne E m i w (by omega)
    · intro hlen
      simp only [elemsLen] at hlen
      have hi : i < elemsLen E := by omega
      have := h3 (by rw [elemsLen_writeElem E i w hi]; omega)
      rw [this, elemsLen_writeElem E i w hi]
    · intro j hj
      cases j with
      | zero => simp [elemAt?] at hj
      | succ n =>
        simp only [elemAt?] at hj
        have := h4 n hj
        have harith : i + 1 + n = i + (n + 1) := by omega
        rw [harith] at this
        rw [this]
        exact elemAt?_writeElem_ne E (i + (n + 1)) i w (by omega)
    · intro j p c hj
      cases j with
      | zero =>
        simp only [elemAt?, Option.some.injEq] at hj
        subst hj
        -- the written value is the reference-branch value
        have hval : walkVal subs sbp opts (.idx i) (.ref p c) old al path
            ⟨.arr id E H, refs, nid⟩
            = ⟨setPropA (JSValue.arr id E H) (.idx i)
                (if hasKey subs (path ++ addrStr (.idx i))
                 then (if al then getPropA (JSValue.arr id E H) (.idx i)
                       else getPropA old (.idx i))
                 else jsStr p),
               setAssoc refs (path ++ addrStr (.idx i)) ⟨p, some (c.getD opts.converter)⟩,
               nid⟩ := rfl
        rw [hst] at hval
        have hd : d1 = setPropA (JSValue.arr id E H) (.idx i)
            (if hasKey subs (path ++ addrStr (.idx i))
             then (if al then getPropA (JSValue.arr id E H) (.idx i)
                   else getPropA old (.idx i))
             else jsStr p) := by
          have h' := congrArg WalkState.data hval
          simpa using h'
        rw [hw] at hd
        simp only [setPropA, JSValue.arr.injEq] at hd
        have hwE : writeElem E i w = writeElem E i
            (if hasKey subs (path ++ addrStr (.idx i))
             then (if al then getPropA (JSValue.arr id E H) (.idx i)
                   else getPropA old (.idx i))
             else jsStr p) := hd.2.1
        have hweq : some w = some
            (if hasKey subs (path ++ addrStr (.idx i))
             then (if al then getPropA (JSValue.arr id E H) (.idx i)
                   else getPropA old (.idx i))
             else jsStr p) := by
          rw [← elemAt?_writeElem_self E i w, hwE, elemAt?_writeElem_self]
        have hwv := Option.some.inj hweq
        have hEi : elemAt? E' (i + 0) = some w := by
          rw [Nat.add_zero, h2 i (by omega)]
          exact elemAt?_writeElem_self E i w
        rw [hEi, hwv]
        simp only [Nat.add_zero, addrStr, getPropA]
      | succ n =>
        simp only [elemAt?] at hj
        have := h5 n p c hj
        have harith : i + 1 + n = i + (n + 1) := by omega
        rw [harith] at this
        rw [this]
        rw [elemAt?_writeElem_ne E (i + (n + 1)) i w (by omega)]

theorem strPre_mono (s t κ : String) (h : ¬ s.data <+: κ.data) :
    ¬ ((s ++ t).data <+: κ.data) := by
  intro hp
  apply h
  refine List.IsPrefix.trans ?_ hp
  rw [String.data_append]
  exact List.prefix_append _ _

theorem ne_of_not_strPre (s κ : String) (h : ¬ s.data <+: κ.data) : s ≠ κ :=
  fun he => h (he ▸ List.prefix_refl _)

/-- The walk only ever writes `refs` entries whose key extends the current
path with a visited key: a key that no visited entry's `path + key` is a
prefix of keeps its `refs` binding. -/
theorem walk_refs_frame (subs : List (String × SubEntry))
    (sbp : List (String × JSValue)) (opts : ExtractOptions) :
    ∀ (fs : JSProps) (old : JSValue) (al : Bool) (path : String) (st : WalkState),
    ∀ κ : String, (∀ k' ∈ propKeys fs, ¬ ((path ++ k').data <+: κ.data)) →
      lookupAssoc (walkProps subs sbp opts fs old al path st).refs κ
        = lookupAssoc st.refs κ := by
  refine walkProps.induct subs sbp opts
    (fun fs old al path st => ∀ κ : String,
      (∀ k' ∈ propKeys fs, ¬ ((path ++ k').data <+: κ.data)) →
      lookupAssoc (walkProps subs sbp opts fs old al path st).refs κ
        = lookupAssoc st.refs κ)
    (fun a v old al path st => ∀ κ : String,
      (¬ ((path ++ addrStr a).data <+: κ.data)) →
      lookupAssoc (walkVal subs sbp opts a v old al path st).refs κ
        = lookupAssoc st.refs κ)
    (fun i esW old al path st => ∀ κ : String,
      (∀ m : Nat, ¬ ((path ++ toString m).data <+: κ.data)) →
      lookupAssoc (walkElems subs sbp opts i esW old al path st).refs κ
        = lookupAssoc st.refs κ)
    ?_ ?_ ?_ ?_ ?_ ?_ ?_ ?_ ?_ ?_ ?_
  · intro a old al path st κ _; rfl
  · intro a old al path st s κ _; rfl
  · intro a old al path st t s κ _; rfl
  · intro a old al path st p conv κ h
    show lookupAssoc
      (setAssoc st.refs (path ++ addrStr a) ⟨p, some (conv.getD opts.converter)⟩) κ
      = lookupAssoc st.refs κ
    exact lookupAssoc_setAssoc_ne st.refs (path ++ addrStr a) κ _
      (ne_of_not_strPre _ _ h)
  · intro a old al path st oldVal id es hs child0 IH κ h
    show lookupAssoc (walkElems subs sbp opts 0 es oldVal (al || !truthy oldVal)
      (path ++ addrStr a ++ ".") ⟨child0, st.refs, st.nid + 1⟩).refs κ
      = lookupAssoc st.refs κ
    exact IH κ (fun m => strPre_mono _ _ _ (strPre_mono _ _ _ h))
  · intro a old al path st oldVal id fs hs child0 IH κ h
    show lookupAssoc (walkProps subs sbp opts fs oldVal al
      (path ++ addrStr a ++ ".") ⟨child0, st.refs, st.nid + 1⟩).refs κ
      = lookupAssoc st.refs κ
    exact IH κ (fun k' _ => strPre_mono _ _ _ (strPre_mono _ _ _ h))
  · intro i old al path st κ _; rfl
  · intro i rest old al path st IH κ h
    exact IH κ h
  · intro i v rest old al path st IH1 IH2 κ h
    show lookupAssoc (walkElems subs sbp opts (i + 1) rest old al path
      (walkVal subs sbp opts (Addr.idx i) v old al path st)).refs κ
      = lookupAssoc st.refs κ
    rw [IH2 κ h]
    exact IH1 κ (h i)
  · intro old al path st κ _; rfl
  · intro k v rest old al path st IH1 IH2 κ h
    show lookupAssoc (walkProps subs sbp opts rest old al path
      (walkVal subs sbp opts (Addr.fld k) v old al path st)).refs κ
      = lookupAssoc st.refs κ
    rw [IH2 κ (fun k' hk' => h k' (by simp [propKeys, hk']))]
    exact IH1 κ (h k (by simp [propKeys]))

/-- C1: when the walker meets a field holding a reference (here: the next
entry of the loop, with arbitrary accumulated state, so at any depth and any
current path), it computes `subKey = path + fieldName`; the output value at
that field is the old document's value there if `subKey` is a key of the
subscriptions registry and the reference's raw path string otherwise; in
both cases `refs[subKey]` is the reference, keeping its own converter when
it has one and wrapped with the options' default converter exactly once
otherwise.  The two side conditions say that no later sibling reuses the
field's key or produces the same subscription key. -/
theorem claim1_ref_decomposition (subs : List (String × SubEntry))
    (sbp : List (String × JSValue)) (opts : ExtractOptions) (k p : String)
    (conv : Option Nat) (rest : JSProps) (old : JSValue) (path : String)
    (id : Nat) (F H : JSProps) (refs : List (String × StoredRef)) (nid : Nat)
    (hk : k ∉ propKeys rest)
    (hpre : ∀ k' ∈ propKeys rest, ¬ ((path ++ k').data <+: (path ++ k).data)) :
    getPropA ((walkProps subs sbp opts (.prop k (.ref p conv) rest) old false path
        ⟨.obj id F H, refs, nid⟩).data) (.fld k)
      = (if hasKey subs (path ++ k) then getPropA old (.fld k) else jsStr p)
    ∧ lookupAssoc ((walkProps subs sbp opts (.prop k (.ref p conv) rest) old false path
        ⟨.obj id F H, refs, nid⟩).refs) (path ++ k)
      = some ⟨p, some (conv.getD opts.converter)⟩ := by
  have hstep : walkProps subs sbp opts (.prop k (.ref p conv) rest) old false path
      ⟨.obj id F H, refs, nid⟩
      = walkProps subs sbp opts rest old false path
        ⟨.obj id (writeProp F k (if hasKey subs (path ++ k) then getPropA old (.fld k)
                                 else jsStr p)) H,
         setAssoc refs (path ++ k) ⟨p, some (conv.getD opts.converter)⟩, nid⟩ := rfl
  rw [hstep]
  constructor
  · obtain ⟨F', hF1, hF2⟩ := walkProps_obj_frame subs sbp opts rest old false path id
      (writeProp F k (if hasKey subs (path ++ k) then getPropA old (.fld k) else jsStr p))
      H (setAssoc refs (path ++ k) ⟨p, some (conv.getD opts.converter)⟩) nid
    rw [hF1]
    show (match lookupProp F' k with
          | some v => v
          | none => (lookupProp H k).getD .vnull) = _
    rw [hF2 k hk, lookupProp_writeProp_self]
  · rw [walk_refs_frame subs sbp opts rest old false path _ (path ++ k) hpre]
    exact lookupAssoc_setAssoc_self refs (path ++ k) _

theorem claim1_witness :
    ("owner" ∉ propKeys JSProps.nil) ∧
    getPropA ((walkProps [] [] ⟨0⟩ (.prop "owner" (.ref "users/1" none) .nil) .vnull
        false "" ⟨.obj 0 .nil .nil, [], 1⟩).data) (.fld "owner") = jsStr "users/1" ∧
    lookupAssoc ((walkProps [] [] ⟨0⟩ (.prop "owner" (.ref "users/1" none) .nil) .vnull
        false "" ⟨.obj 0 .nil .nil, [], 1⟩).refs) "owner"
      = some ⟨"users/1", some 0⟩ := by
  have h := claim1_ref_decomposition [] [] ⟨0⟩ "owner" "users/1" none .nil .vnull ""
    0 .nil .nil [] 1 (by simp [propKeys]) (by simp [propKeys])
  refine ⟨by simp [propKeys], ?_, ?_⟩
  · have h1 := h.1
    simpa [hasKey, lookupAssoc] using h1
  · have h2 := h.2
    simpa using h2

/-- C6: before any enumerable field is processed, the walker copies every
non-enumerable own property of the input verbatim onto the output, and the
rest of the walk never touches them: the output's non-enumerable property
table is exactly the input's. -/
theorem claim6_hidden_preserved (doc old : JSValue) (subs : List (String × SubEntry))
    (opts : ExtractOptions) (nid : Nat)
    (hpojo : isPOJO doc = true) (hnd : nodupProps (hiddenOf doc) = true) :
    hiddenOf ((extractRefs doc old subs opts nid).data) = hiddenOf doc := by
  cases doc with
  | vnull => simp [isPOJO] at hpojo
  | scalar t s => simp [isPOJO] at hpojo
  | special s => simp [isPOJO] at hpojo
  | ref p c => simp [isPOJO] at hpojo
  | arr i es hs => simp [isPOJO] at hpojo
  | obj i0 fs hs =>
    show hiddenOf ((walkProps subs (subsByPath subs) opts fs old false ""
      ⟨addHidden (.obj nid .nil .nil) hs, [], nid + 1⟩).data) = hs
    have hhs : nodupProps hs = true := hnd
    rw [addHidden_obj hs nid .nil .nil hhs (fun k _ => rfl)]
    obtain ⟨F', hF1, _⟩ := walkProps_obj_frame subs (subsByPath subs) opts fs old false ""
      nid .nil (propsAppend .nil hs) [] (nid + 1)
    rw [hF1]
    rfl

theorem claim6_witness :
    isPOJO (JSValue.obj 0 (.prop "a" (jsStr "v") .nil) (.prop "x" (jsStr "1") .nil)) = true ∧
    nodupProps (hiddenOf (JSValue.obj 0 (.prop "a" (jsStr "v") .nil)
      (.prop "x" (jsStr "1") .nil))) = true ∧
    hiddenOf ((extractRefs (JSValue.obj 0 (.prop "a" (jsStr "v") .nil)
        (.prop "x" (jsStr "1") .nil)) .vnull [] ⟨0⟩ 7).data)
      = .prop "x" (jsStr "1") .nil :=
  ⟨rfl, rfl, claim6_hidden_preserved _ .vnull [] ⟨0⟩ 7 rfl rfl⟩

/-- C8: a non-plain-object top-level input is returned unchanged with an
empty `refs` map, and a value category the walker does not recognize (the
final `else` branch, modelled by `scalar`) is copied through as-is — the
walker is total by construction and raises no errors. -/
theorem claim8_degrade_gracefully :
    (∀ (doc old : JSValue) (subs : List (String × SubEntry)) (opts : ExtractOptions)
       (nid : Nat), isPOJO doc = false →
       extractRefs doc old subs opts nid = ⟨doc, [], nid⟩)
    ∧ (∀ (subs : List (String × SubEntry)) (sbp : List (String × JSValue))
         (opts : ExtractOptions) (k : String) (t : Bool) (s : String) (rest : JSProps)
         (old : JSValue) (al : Bool) (path : String) (id : Nat) (F H : JSProps)
         (refs : List (String × StoredRef)) (nid : Nat), k ∉ propKeys rest →
       getPropA ((walkProps subs sbp opts (.prop k (.scalar t s) rest) old al path
           ⟨.obj id F H, refs, nid⟩).data) (.fld k) = .scalar t s) := by
  constructor
  · intro doc old subs opts nid h
    simp [extractRefs, h]
  · intro subs sbp opts k t s rest old al path id F H refs nid hk
    have hstep : walkProps subs sbp opts (.prop k (.scalar t s) rest) old al path
        ⟨.obj id F H, refs, nid⟩
        = walkProps subs sbp opts rest old al path
          ⟨.obj id (writeProp F k (.scalar t s)) H, refs, nid⟩ := rfl
    rw [hstep]
    obtain ⟨F', hF1, hF2⟩ := walkProps_obj_frame subs sbp opts rest old al path id
      (writeProp F k (.scalar t s)) H refs nid
    rw [hF1]
    show (match lookupProp F' k with
          | some v => v
          | none => (lookupProp H k).getD .vnull) = _
    rw [hF2 k hk, lookupProp_writeProp_self]

theorem claim8_witness :
    isPOJO (jsStr "just a string") = false ∧
    extractRefs (jsStr "just a string") .vnull [] ⟨0⟩ 4
      = ⟨jsStr "just a string", [], 4⟩ ∧
    ("x" ∉ propKeys JSProps.nil) ∧
    getPropA ((walkProps [] [] ⟨0⟩ (.prop "x" (.scalar true "42") .nil) .vnull false ""
        ⟨.obj 0 .nil .nil, [], 1⟩).data) (.fld "x") = .scalar true "42" :=
  ⟨rfl, claim8_degrade_gracefully.1 _ .vnull [] ⟨0⟩ 4 rfl, by simp [propKeys],
   claim8_degrade_gracefully.2 [] [] ⟨0⟩ "x" true "42" .nil .vnull false "" 0 .nil .nil [] 1
     (by simp [propKeys])⟩

theorem subsByPath_foldl (subs : List (String × SubEntry)) :
    ∀ (acc : List (String × JSValue)) (p : String),
    lookupAssoc (subs.foldl (fun acc kv => setAssoc acc kv.2.path kv.2.data) acc) p =
      (match subs.reverse.find? (fun kv => kv.2.path == p) with
       | some kv => some kv.2.data
       | none => lookupAssoc acc p) := by
  induction subs with
  | nil => intro acc p; simp
  | cons kv rest ih =>
    intro acc p
    simp only [List.foldl_cons, List.reverse_cons]
    rw [ih, List.find?_append]
    cases hf : rest.reverse.find? (fun kv => kv.2.path == p) with
    | some kv' => simp [Option.or]
    | none =>
      simp only [Option.or_none]
      by_cases hp : kv.2.path = p
      · subst hp
        simp [List.find?, lookupAssoc_setAssoc_self]
      · have hb : (kv.2.path == p) = false := by simp [hp]
        simp [List.find?, hb, lookupAssoc_setAssoc_ne acc kv.2.path p kv.2.data hp]

/-- C9: the Subscription Path Index is built by calling each registry
entry's `data()` and keying the result by that entry's `path`.  First
conjunct: the index at `p` is the `data()` result of the *last* registry
entry whose path is `p` (last-write-wins).  Second: anything in the index is
the `data()` of one of the entries carrying that path.  Third: a path
carried by exactly one entry maps to that entry's `data()`. -/
theorem claim9_subs_by_path (subs : List (String × SubEntry)) :
    (∀ p, lookupAssoc (subsByPath subs) p =
      (match subs.reverse.find? (fun kv => kv.2.path == p) with
       | some kv => some kv.2.data
       | none => none))
    ∧ (∀ p d, lookupAssoc (subsByPath subs) p = some d →
        ∃ e ∈ subs, e.2.path = p ∧ e.2.data = d)
    ∧ (∀ e ∈ subs, (∀ e' ∈ subs, e'.2.path = e.2.path → e' = e) →
        lookupAssoc (subsByPath subs) e.2.path = some e.2.data) := by
  have hchar : ∀ p, lookupAssoc (subsByPath subs) p =
      (match subs.reverse.find? (fun kv => kv.2.path == p) with
       | some kv => some kv.2.data
       | none => none) := by
    intro p
    have := subsByPath_foldl subs [] p
    simpa [subsByPath, lookupAssoc] using this
  refine ⟨hchar, ?_, ?_⟩
  · intro p d hd
    rw [hchar p] at hd
    cases hf : subs.reverse.find? (fun kv => kv.2.path == p) with
    | none => rw [hf] at hd; simp at hd
    | some kv =>
      rw [hf] at hd
      simp only [Option.some.injEq] at hd
      have hmem : kv ∈ subs := List.mem_reverse.mp (List.mem_of_find?_eq_some hf)
      have hpath : kv.2.path = p := by
        have := List.find?_some hf
        simpa using this
      exact ⟨kv, hmem, hpath, hd⟩
  · intro e he huniq
    rw [hchar e.2.path]
    have hsome : (subs.reverse.find? (fun kv => kv.2.path == e.2.path)).isSome = true := by
      rw [List.find?_isSome]
      exact ⟨e, List.mem_reverse.mpr he, by simp⟩
    cases hf : subs.reverse.find? (fun kv => kv.2.path == e.2.path) with
    | none => rw [hf] at hsome; simp at hsome
    | some kv =>
      have hmem : kv ∈ subs := List.mem_reverse.mp (List.mem_of_find?_eq_some hf)
      have hpath : kv.2.path = e.2.path := by
        have := List.find?_some hf
        simpa using this
      rw [huniq kv hmem hpath]

theorem claim9_witness :
    lookupAssoc (subsByPath [("a", ⟨"p", jsStr "1"⟩), ("b", ⟨"p", jsStr "2"⟩)]) "p"
      = some (jsStr "2") ∧
    lookupAssoc (subsByPath [("a", ⟨"q", jsStr "1"⟩)]) "q" = some (jsStr "1") := by
  constructor
  · rw [(claim9_subs_by_path [("a", ⟨"p", jsStr "1"⟩), ("b", ⟨"p", jsStr "2"⟩)]).1 "p"]
    rfl
  · exact (claim9_subs_by_path [("a", ⟨"q", jsStr "1"⟩)]).2.2 ("a", ⟨"q", jsStr "1"⟩)
      (by simp) (by intro e' he' _; simpa using he')

/-- C10: in the array fast path, any truthy element whose `path` property is
a key of the Subscription Path Index has that path's resolved value placed
at its position — nothing requires the element to be a reference: the
hypotheses hold for any plain object carrying a matching `path` field. -/
theorem claim10_fast_path_any_truthy (sbp : List (String × JSValue)) (es : JSElems)
    (i : Nat) (e : JSValue) (p : String) (d : JSValue)
    (he : elemAt? es i = some e) (ht : truthy e = true)
    (hp : pathKey? e = some p) (hd : lookupAssoc sbp p = some d) :
    elemAt? (fastFill sbp es) i = some d :=
  fastFill_at sbp es i e p d he ht hp hd

theorem claim10_witness :
    (elemAt? (.elem (JSValue.obj 3 (.prop "path" (jsStr "p")
        (.prop "x" (jsStr "1") .nil)) .nil) .nil) 0
      = some (JSValue.obj 3 (.prop "path" (jsStr "p") (.prop "x" (jsStr "1") .nil)) .nil)) ∧
    truthy (JSValue.obj 3 (.prop "path" (jsStr "p") (.prop "x" (jsStr "1") .nil)) .nil) = true ∧
    pathKey? (JSValue.obj 3 (.prop "path" (jsStr "p") (.prop "x" (jsStr "1") .nil)) .nil)
      = some "p" ∧
    elemAt? (fastFill [("p", JSValue.obj 9 .nil .nil)]
        (.elem (JSValue.obj 3 (.prop "path" (jsStr "p") (.prop "x" (jsStr "1") .nil)) .nil)
          .nil)) 0
      = some (JSValue.obj 9 .nil .nil) :=
  ⟨rfl, rfl, rfl,
   claim10_fast_path_any_truthy [("p", JSValue.obj 9 .nil .nil)] _ 0 _ "p" _ rfl rfl rfl rfl⟩

/-! ## Reference-freeness infrastructure -/

theorem fastFill_hole (sbp : List (String × JSValue)) (es : JSElems) (j : Nat)
    (h : elemAt? es j = none) : elemAt? (fastFill sbp es) j = none := by
  induction es using elemsInd generalizing j with
  | nil => simp [fastFill, elemAt?]
  | hole rest ih =>
    cases j with
    | zero => simp [fastFill, elemAt?]
    | succ n => simp only [elemAt?] at h; simpa [fastFill, elemAt?] using ih n h
  | elem v rest ih =>
    cases j with
    | zero => simp [elemAt?] at h
    | succ n =>
      simp only [elemAt?] at h
      by_cases ht : truthy v
      · simp only [fastFill, ht, if_pos]
        cases hp : pathKey? v with
        | none => simpa [elemAt?] using ih n h
        | some q => cases hr : lookupAssoc sbp q <;> simp [hr, elemAt?] <;> exact ih n h
      · simpa [fastFill, ht, elemAt?] using ih n h

theorem refFreeP_lookup (P : JSProps) (k : String) (w : JSValue)
    (hP : refFreeP P = true) (h : lookupProp P k = some w) : refFree w = true := by
  induction P using propsInd with
  | nil => simp [lookupProp] at h
  | prop k' v r ih =>
    simp only [refFreeP, Bool.and_eq_true] at hP
    simp only [lookupProp] at h
    by_cases he : k' = k
    · rw [if_pos he] at h; exact (Option.some.inj h) ▸ hP.1
    · rw [if_neg he] at h; exact ih hP.2 h

theorem refFreeE_elemAt (E : JSElems) (i : Nat) (w : JSValue)
    (hE : refFreeE E = true) (h : elemAt? E i = some w) : refFree w = true := by
  induction E using elemsInd generalizing i with
  | nil => simp [elemAt?] at h
  | hole r ih =>
    cases i with
    | zero => simp [elemAt?] at h
    | succ n => simp only [elemAt?] at h; exact ih n hE h
  | elem v r ih =>
    simp only [refFreeE, Bool.and_eq_true] at hE
    cases i with
    | zero => simp only [elemAt?, Option.some.injEq] at h; exact h ▸ hE.1
    | succ n => simp only [elemAt?] at h; exact ih n hE.2 h

theorem refFree_getPropA (v : JSValue) (a : Addr) (h : refFree v = true) :
    refFree (getPropA v a) = true := by
  cases v with
  | vnull => simp [getPropA, refFree]
  | scalar t s => simp [getPropA, refFree]
  | special s => simp [getPropA, refFree]
  | ref p c => simp [refFree] at h
  | arr id es hs =>
    simp only [refFree, Bool.and_eq_true] at h
    cases a with
    | idx i =>
      show refFree ((elemAt? es i).getD .vnull) = true
      cases he : elemAt? es i with
      | none => simp [he, refFree]
      | some w => simpa [he] using refFreeE_elemAt es i w h.1 he
    | fld k =>
      show refFree
        (match canonIdx? k with
         | some i => (elemAt? es i).getD .vnull
         | none => (lookupProp hs k).getD .vnull) = true
      cases canonIdx? k with
      | some i =>
        cases he : elemAt? es i with
        | none => simp [he, refFree]
        | some w => simpa [he] using refFreeE_elemAt es i w h.1 he
      | none =>
        cases he : lookupProp hs k with
        | none => simp [he, refFree]
        | some w => simpa [he] using refFreeP_lookup hs k w h.2 he
  | obj id fs hs =>
    simp only [refFree, Bool.and_eq_true] at h
    show refFree
      (match lookupProp fs (addrStr a) with
       | some w => w
       | none => (lookupProp hs (addrStr a)).getD .vnull) = true
    cases he : lookupProp fs (addrStr a) with
    | some w => exact refFreeP_lookup fs (addrStr a) w h.1 he
    | none =>
      cases he2 : lookupProp hs (addrStr a) with
      | none => simp [he2, refFree]
      | some w => simpa [he2] using refFreeP_lookup hs (addrStr a) w h.2 he2

theorem refFreeP_writeProp (P : JSProps) (k : String) (w : JSValue)
    (hP : refFreeP P = true) (hw : refFree w = true) :
    refFreeP (writeProp P k w) = true := by
  induction P using propsInd with
  | nil => simp [writeProp, refFreeP, hw]
  | prop k' v r ih =>
    simp only [refFreeP, Bool.and_eq_true] at hP
    by_cases he : k' = k
    · simp [writeProp, he, refFreeP, hw, hP.2]
    · simp [writeProp, he, refFreeP, hP.1, ih hP.2]

theorem refFreeE_writeElem (E : JSElems) (i : Nat) (w : JSValue)
    (hE : refFreeE E = true) (hw : refFree w = true) :
    refFreeE (writeElem E i w) = true := by
  induction E using elemsInd generalizing i with
  | nil =>
    induction i with
    | zero => simp [writeElem, refFreeE, hw]
    | succ n ihn => simpa [writeElem, refFreeE] using ihn
  | hole r ih =>
    simp only [refFreeE] at hE
    cases i with
    | zero => simp [writeElem, refFreeE, hw, hE]
    | succ n => simp [writeElem, refFreeE, ih n hE]
  | elem v r ih =>
    simp only [refFreeE, Bool.and_eq_true] at hE
    cases i with
    | zero => simp [writeElem, refFreeE, hw, hE.2]
    | succ n => simp [writeElem, refFreeE, hE.1, ih n hE.2]

theorem refFree_setPropA (d : JSValue) (a : Addr) (w : JSValue)
    (hd : refFree d = true) (hw : refFree w = true) :
    refFree (setPropA d a w) = true := by
  cases d with
  | vnull => simpa [setPropA] using hd
  | scalar t s => simpa [setPropA] using hd
  | special s => simpa [setPropA] using hd
  | ref p c => simpa [setPropA] using hd
  | arr id es hs =>
    simp only [refFree, Bool.and_eq_true] at hd
    cases a with
    | idx i =>
      show refFree (.arr id (writeElem es i w) hs) = true
      simp [refFree, refFreeE_writeElem es i w hd.1 hw, hd.2]
    | fld k =>
      show refFree
        (match canonIdx? k with
         | some i => JSValue.arr id (writeElem es i w) hs
         | none => JSValue.arr id es hs) = true
      cases canonIdx? k with
      | some i => simp [refFree, refFreeE_writeElem es i w hd.1 hw, hd.2]
      | none => simp [refFree, hd.1, hd.2]
  | obj id fs hs =>
    simp only [refFree, Bool.and_eq_true] at hd
    show refFree (.obj id (writeProp fs (addrStr a) w) hs) = true
    simp [refFree, refFreeP_writeProp fs (addrStr a) w hd.1 hw, hd.2]

theorem fastFill_refFree (sbp : List (String × JSValue))
    (hsbp : ∀ p d, lookupAssoc sbp p = some d → refFree d = true) (es : JSElems) :
    refFreeE (fastFill sbp es) = true := by
  induction es using elemsInd with
  | nil => simp [fastFill, refFreeE]
  | hole r ih => simp [fastFill, refFreeE, ih]
  | elem v r ih =>
    by_cases ht : truthy v
    · simp only [fastFill, ht, if_pos]
      cases hp : pathKey? v with
      | none => simp [refFreeE, ih]
      | some q =>
        cases hr : lookupAssoc sbp q with
        | none => simp [hr, refFreeE, ih]
        | some d => simp [hr, refFreeE, ih, hsbp q d hr]
    · simp [fastFill, ht, refFreeE, ih]

theorem addHidden_refFree (hs : JSProps) : ∀ (v : JSValue),
    refFree v = true → refFreeP hs = true → refFree (addHidden v hs) = true := by
  induction hs using propsInd with
  | nil => intro v hv _; cases v <;> simpa [addHidden] using hv
  | prop k w r ih =>
    intro v hv hhs
    simp only [refFreeP, Bool.and_eq_true] at hhs
    cases v with
    | vnull => simpa [addHidden] using hv
    | scalar t s => simpa [addHidden] using hv
    | special s => simpa [addHidden] using hv
    | ref p c => simp [refFree] at hv
    | arr id es h =>
      simp only [refFree, Bool.and_eq_true] at hv
      show refFree (addHidden (.arr id es (writeProp h k w)) r) = true
      exact ih _ (by simp [refFree, hv.1, refFreeP_writeProp h k w hv.2 hhs.1]) hhs.2
    | obj id fs h =>
      simp only [refFree, Bool.and_eq_true] at hv
      show refFree (addHidden (.obj id fs (writeProp h k w)) r) = true
      exact ih _ (by simp [refFree, hv.1, refFreeP_writeProp h k w hv.2 hhs.1]) hhs.2

/-- Everything stored in the Subscription Path Index is the `data()` of some
registry entry carrying that path. -/
theorem subsByPath_mem (subs : List (String × SubEntry)) (p : String) (d : JSValue)
    (h : lookupAssoc (subsByPath subs) p = some d) :
    ∃ e ∈ subs, e.2.path = p ∧ e.2.data = d := by
  have hchar := subsByPath_foldl subs [] p
  simp only [subsByPath] at h
  rw [hchar] at h
  cases hf : subs.reverse.find? (fun kv => kv.2.path == p) with
  | none => rw [hf] at h; simp [lookupAssoc] at h
  | some kv =>
    rw [hf] at h
    simp only [Option.some.injEq] at h
    refine ⟨kv, List.mem_reverse.mp (List.mem_of_find?_eq_some hf), ?_, h⟩
    have := List.find?_some hf
    simpa using this

/-- The walk preserves reference-freeness of the output under construction,
provided the old document is reference-free (when it is not the aliased
output itself), every index value is reference-free, and the non-enumerable
properties of the walked values are reference-free. -/
theorem walk_refFree (subs : List (String × SubEntry))
    (sbp : List (String × JSValue)) (opts : ExtractOptions)
    (hsbp : ∀ p d, lookupAssoc sbp p = some d → refFree d = true) :
    ∀ (fs : JSProps) (old : JSValue) (al : Bool) (path : String) (st : WalkState),
    hCleanP fs = true → refFree st.data = true → (al = false → refFree old = true) →
    refFree (walkProps subs sbp opts fs old al path st).data = true := by
  refine walkProps.induct subs sbp opts
    (fun fs old al path st =>
      hCleanP fs = true → refFree st.data = true → (al = false → refFree old = true) →
      refFree (walkProps subs sbp opts fs old al path st).data = true)
    (fun a v old al path st =>
      hClean v = true → refFree st.data = true → (al = false → refFree old = true) →
      refFree (walkVal subs sbp opts a v old al path st).data = true)
    (fun i esW old al path st =>
      hCleanE esW = true → refFree st.data = true → (al = false → refFree old = true) →
      refFree (walkElems subs sbp opts i esW old al path st).data = true)
    ?_ ?_ ?_ ?_ ?_ ?_ ?_ ?_ ?_ ?_ ?_
  · intro a old al path st _ hst _
    exact refFree_setPropA st.data a .vnull hst rfl
  · intro a old al path st s _ hst _
    exact refFree_setPropA st.data a (.special s) hst rfl
  · intro a old al path st t s _ hst _
    exact refFree_setPropA st.data a (.scalar t s) hst rfl
  · intro a old al path st p conv _ hst hold
    show refFree (setPropA st.data a
      (if hasKey subs (path ++ addrStr a) = true
       then (if al = true then getPropA st.data a else getPropA old a)
       else jsStr p)) = true
    apply refFree_setPropA st.data a _ hst
    by_cases hb : hasKey subs (path ++ addrStr a) = true
    · rw [if_pos hb]
      cases al with
      | true => simpa using refFree_getPropA st.data a hst
      | false => simpa using refFree_getPropA old a (hold rfl)
    · rw [if_neg hb]; rfl
  · intro a old al path st oldVal id es hs child0 IH hcl hst hold
    simp only [hClean, Bool.and_eq_true] at hcl
    have hov : refFree oldVal = true := by
      have hd : oldVal = if al = true then getPropA st.data a else getPropA old a := rfl
      rw [hd]
      cases al with
      | true => simpa using refFree_getPropA st.data a hst
      | false => simpa using refFree_getPropA old a (hold rfl)
    have hchild : refFree child0 = true := by
      have hd : child0 = addHidden (.arr st.nid (fastFill sbp es) .nil) hs := rfl
      rw [hd]
      exact addHidden_refFree hs _
        (by simp [refFree, fastFill_refFree sbp hsbp es, refFreeP]) hcl.1
    show refFree (setPropA st.data a
      (walkElems subs sbp opts 0 es oldVal (al || !truthy oldVal)
        (path ++ addrStr a ++ ".") ⟨child0, st.refs, st.nid + 1⟩).data) = true
    exact refFree_setPropA st.data a _ hst (IH hcl.2 hchild (fun _ => hov))
  · intro a old al path st oldVal id fs hs child0 IH hcl hst hold
    simp only [hClean, Bool.and_eq_true] at hcl
    have hov : refFree oldVal = true := by
      have hd : oldVal = if al = true then getPropA st.data a else getPropA old a := rfl
      rw [hd]
      cases al with
      | true => simpa using refFree_getPropA st.data a hst
      | false => simpa using refFree_getPropA old a (hold rfl)
    have hchild : refFree child0 = true := by
      have hd : child0 = addHidden (.obj st.nid .nil .nil) hs := rfl
      rw [hd]
      exact addHidden_refFree hs _ (by simp [refFree, refFreeP]) hcl.1
    show refFree (setPropA st.data a
      (walkProps subs sbp opts fs oldVal al
        (path ++ addrStr a ++ ".") ⟨child0, st.refs, st.nid + 1⟩).data) = true
    exact refFree_setPropA st.data a _ hst (IH hcl.2 hchild (fun _ => hov))
  · intro i old al path st _ hst _
    exact hst
  · intro i rest old al path st IH hcl hst hold
    exact IH hcl hst hold
  · intro i v rest old al path st IH1 IH2 hcl hst hold
    simp only [hCleanE, Bool.and_eq_true] at hcl
    exact IH2 hcl.2 (IH1 hcl.1 hst hold) hold
  · intro old al path st _ hst _
    exact hst
  · intro k v rest old al path st IH1 IH2 hcl hst hold
    simp only [hCleanP, Bool.and_eq_true] at hcl
    exact IH2 hcl.2 (IH1 hcl.1 hst hold) hold

/-- C3, counterexample: a plain object carrying a *non-enumerable* property
whose value is a raw reference.  The walker copies the descriptor verbatim
(source lines 72-77), so the returned data still contains the raw reference
at that position — neither a path string nor a resolved document. -/
theorem claim3_counterexample :
    getPropA ((extractRefs (.obj 0 .nil (.prop "h" (.ref "p" none) .nil)) .vnull []
        ⟨0⟩ 5).data) (.fld "h") = .ref "p" none ∧
    refFree ((extractRefs (.obj 0 .nil (.prop "h" (.ref "p" none) .nil)) .vnull []
        ⟨0⟩ 5).data) = false :=
  ⟨rfl, rfl⟩

/-- C3, amended: the returned data contains no raw reference at any depth
*provided* the input's non-enumerable properties (at every container reached
through enumerable fields and array elements) are reference-free, the old
document is reference-free, and every subscription's `data()` is
reference-free.  (The original claim fails without these hypotheses: hidden
reference-valued properties are copied verbatim, a bound reference position
receives `oldDoc`'s value whatever it is, and the array fast path copies
index values as they are.) -/
theorem claim3_amended_no_raw_refs (doc old : JSValue)
    (subs : List (String × SubEntry)) (opts : ExtractOptions) (nid : Nat)
    (hpojo : isPOJO doc = true) (hclean : hClean doc = true)
    (hold : refFree old = true)
    (hsubs : ∀ e ∈ subs, refFree e.2.data = true) :
    refFree ((extractRefs doc old subs opts nid).data) = true := by
  cases doc with
  | vnull => simp [isPOJO] at hpojo
  | scalar t s => simp [isPOJO] at hpojo
  | special s => simp [isPOJO] at hpojo
  | ref p c => simp [isPOJO] at hpojo
  | arr i es hs => simp [isPOJO] at hpojo
  | obj i0 fs hs =>
    simp only [hClean, Bool.and_eq_true] at hclean
    have hsbp : ∀ p d, lookupAssoc (subsByPath subs) p = some d → refFree d = true := by
      intro p d h
      obtain ⟨e, he, _, hd⟩ := subsByPath_mem subs p d h
      exact hd ▸ hsubs e he
    show refFree ((walkProps subs (subsByPath subs) opts fs old false ""
      ⟨addHidden (.obj nid .nil .nil) hs, [], nid + 1⟩).data) = true
    apply walk_refFree subs (subsByPath subs) opts hsbp fs old false ""
      ⟨addHidden (.obj nid .nil .nil) hs, [], nid + 1⟩ hclean.2
    · exact addHidden_refFree hs _ (by simp [refFree, refFreeP]) hclean.1
    · intro _; exact hold

theorem claim3_amended_witness :
    isPOJO (JSValue.obj 0 (.prop "owner" (.ref "users/1" none) .nil) .nil) = true ∧
    hClean (JSValue.obj 0 (.prop "owner" (.ref "users/1" none) .nil) .nil) = true ∧
    refFree ((extractRefs (.obj 0 (.prop "owner" (.ref "users/1" none) .nil) .nil)
        .vnull [] ⟨0⟩ 3).data) = true :=
  ⟨rfl, rfl,
   claim3_amended_no_raw_refs _ .vnull [] ⟨0⟩ 3 rfl rfl rfl (by intro e he; simp at he)⟩

/-- C2, counterexample: `doc = { a: [ref to "p"] }` with a subscription
registered under key `"s"` (not the positional key `"a.0"`) whose path is
`"p"` and whose resolved value is the string `"D"`.  The fast path places
`"D"` at index 0, but the generic recursion then overwrites the slot with
the reference's path string `"p"`, because the positional subscription key
`"a.0"` is not registered — the fast-path slot is *not* preserved. -/
theorem claim2_counterexample :
    lookupAssoc (subsByPath [("s", ⟨"p", jsStr "D"⟩)]) "p" = some (jsStr "D") ∧
    elemAt? (fastFill (subsByPath [("s", ⟨"p", jsStr "D"⟩)])
        (.elem (.ref "p" none) .nil)) 0 = some (jsStr "D") ∧
    (extractRefs
        (.obj 0 (.prop "a" (.arr 1 (.elem (.ref "p" none) .nil) .nil) .nil) .nil)
        .vnull [("s", ⟨"p", jsStr "D"⟩)] ⟨0⟩ 10).data
      = .obj 10 (.prop "a" (.arr 11 (.elem (jsStr "p") .nil) .nil) .nil) .nil ∧
    deepEq (jsStr "p") (jsStr "D") = false :=
  ⟨rfl, rfl, rfl, rfl⟩

/-- C2, amended: for an array-valued field (processed with the given old
document, not aliased), the walker allocates an output array of the input's
length with the input's non-enumerable properties; input holes stay unset
holes (not `null`); when the old document's value at the field is falsy the
recursion reads the partially filled output as the old value, so a
fast-path-filled reference slot survives exactly when its positional
subscription key is registered; a reference slot whose positional key is not
registered is overwritten with the reference's path string. -/
theorem claim2_amended_array_decomposition (subs : List (String × SubEntry))
    (sbp : List (String × JSValue)) (opts : ExtractOptions) (k : String)
    (vid : Nat) (es : JSElems) (hs : JSProps) (rest : JSProps) (old : JSValue)
    (path : String) (id : Nat) (F H : JSProps)
    (refs : List (String × StoredRef)) (nid : Nat)
    (hk : k ∉ propKeys rest) (hnd : nodupProps hs = true) :
    ∃ E', getPropA ((walkProps subs sbp opts (.prop k (.arr vid es hs) rest) old false
        path ⟨.obj id F H, refs, nid⟩).data) (.fld k) = .arr nid E' hs ∧
      elemsLen E' = elemsLen es ∧
      (∀ j, elemAt? es j = none → elemAt? E' j = none) ∧
      (truthy (getPropA old (.fld k)) = false →
        ∀ j p c d, elemAt? es j = some (.ref p c) →
          hasKey subs (path ++ k ++ "." ++ toString j) = true →
          lookupAssoc sbp p = some d →
          elemAt? E' j = some d) ∧
      (∀ j p c, elemAt? es j = some (.ref p c) →
          hasKey subs (path ++ k ++ "." ++ toString j) = false →
          elemAt? E' j = some (jsStr p)) := by
  have hchild0 : addHidden (.arr nid (fastFill sbp es) .nil) hs
      = .arr nid (fastFill sbp es) hs := by
    rw [addHidden_arr hs nid (fastFill sbp es) .nil hnd (fun k' _ => rfl)]
    rfl
  have hstep : walkProps subs sbp opts (.prop k (.arr vid es hs) rest) old false path
      ⟨.obj id F H, refs, nid⟩
      = walkProps subs sbp opts rest old false path
        ⟨setPropA (.obj id F H) (.fld k)
          (walkElems subs sbp opts 0 es (getPropA old (.fld k))
            (false || !truthy (getPropA old (.fld k)))
            (path ++ k ++ ".")
            ⟨addHidden (.arr nid (fastFill sbp es) .nil) hs, refs, nid + 1⟩).data,
         (walkElems subs sbp opts 0 es (getPropA old (.fld k))
            (false || !truthy (getPropA old (.fld k)))
            (path ++ k ++ ".")
            ⟨addHidden (.arr nid (fastFill sbp es) .nil) hs, refs, nid + 1⟩).refs,
         (walkElems subs sbp opts 0 es (getPropA old (.fld k))
            (false || !truthy (getPropA old (.fld k)))
            (path ++ k ++ ".")
            ⟨addHidden (.arr nid (fastFill sbp es) .nil) hs, refs, nid + 1⟩).nid⟩ := rfl
  obtain ⟨E', h1, h2, h3, h4, h5⟩ := walkElems_arr_char subs sbp opts es 0
    (getPropA old (.fld k)) (false || !truthy (getPropA old (.fld k)))
    (path ++ k ++ ".") nid (fastFill sbp es) hs refs (nid + 1)
  rw [hchild0] at hstep
  refine ⟨E', ?_, ?_, ?_, ?_, ?_⟩
  · rw [hstep]
    obtain ⟨F', hF1, hF2⟩ := walkProps_obj_frame subs sbp opts rest old false path id
      (writeProp F k _) H _ _
    show getPropA ((walkProps subs sbp opts rest old false path
      ⟨.obj id (writeProp F k _) H, _, _⟩).data) (.fld k) = .arr nid E' hs
    rw [hF1]
    show (match lookupProp F' k with
          | some v => v
          | none => (lookupProp H k).getD .vnull) = _
    rw [hF2 k hk, lookupProp_writeProp_self]
    exact h1
  · rw [h3 (by rw [elemsLen_fastFill]; omega), elemsLen_fastFill]
  · intro j hj
    have := h4 j hj
    rw [Nat.zero_add] at this
    rw [this]
    exact fastFill_hole sbp es j hj
  · intro hfalsy j p c d hj hkey hd
    have := h5 j p c hj
    rw [Nat.zero_add] at this
    rw [this, hkey]
    simp only [hfalsy, Bool.not_false, Bool.or_true, if_true, if_pos]
    rw [fastFill_at sbp es j (.ref p c) p d hj rfl rfl hd]
    rfl
  · intro j p c hj hkey
    have := h5 j p c hj
    rw [Nat.zero_add] at this
    rw [this, hkey]
    simp

theorem claim2_amended_witness :
    elemsLen (elemsOf (getPropA ((walkProps [("a.0", ⟨"p", jsStr "D"⟩)]
        (subsByPath [("a.0", ⟨"p", jsStr "D"⟩)]) ⟨0⟩
        (.prop "a" (.arr 1 (.elem (.ref "p" none) (.hole .nil)) .nil) .nil) .vnull
        false "" ⟨.obj 0 .nil .nil, [], 10⟩).data) (.fld "a"))) = 2 ∧
    elemAt? (elemsOf (getPropA ((walkProps [("a.0", ⟨"p", jsStr "D"⟩)]
        (subsByPath [("a.0", ⟨"p", jsStr "D"⟩)]) ⟨0⟩
        (.prop "a" (.arr 1 (.elem (.ref "p" none) (.hole .nil)) .nil) .nil) .vnull
        false "" ⟨.obj 0 .nil .nil, [], 10⟩).data) (.fld "a"))) 0 = some (jsStr "D") ∧
    elemAt? (elemsOf (getPropA ((walkProps [("a.0", ⟨"p", jsStr "D"⟩)]
        (subsByPath [("a.0", ⟨"p", jsStr "D"⟩)]) ⟨0⟩
        (.prop "a" (.arr 1 (.elem (.ref "p" none) (.hole .nil)) .nil) .nil) .vnull
        false "" ⟨.obj 0 .nil .nil, [], 10⟩).data) (.fld "a"))) 1 = none := by
  obtain ⟨E', h1, h2, h3, h4, h5⟩ := claim2_amended_array_decomposition
    [("a.0", ⟨"p", jsStr "D"⟩)] (subsByPath [("a.0", ⟨"p", jsStr "D"⟩)]) ⟨0⟩
    "a" 1 (.elem (.ref "p" none) (.hole .nil)) .nil .nil .vnull "" 0 .nil .nil [] 10
    (by simp [propKeys]) rfl
  rw [h1]
  refine ⟨by simpa [elemsOf, elemsLen] using h2, ?_, ?_⟩
  · show elemAt? E' 0 = some (jsStr "D")
    exact h4 rfl 0 "p" none (jsStr "D") rfl rfl rfl
  · show elemAt? E' 1 = none
    exact h3 1 rfl

/-- C5, counterexample to identity stability: decompose `{ a: { x: "1" } }`
(no references, empty registry) and feed the result back as `oldDoc`.  The
second result is deep-equal to the first, including at the untouched subtree
`a`, yet the nested container at `a` is a fresh allocation — its identifier
differs from the first result's, so they are not the same instance. -/
theorem claim5_counterexample :
    deepEq
      (extractRefs (.obj 0 (.prop "a" (.obj 1 (.prop "x" (jsStr "1") .nil) .nil) .nil) .nil)
        ((extractRefs (.obj 0 (.prop "a" (.obj 1 (.prop "x" (jsStr "1") .nil) .nil) .nil) .nil)
          .vnull [] ⟨0⟩ 100).data) [] ⟨0⟩
        ((extractRefs (.obj 0 (.prop "a" (.obj 1 (.prop "x" (jsStr "1") .nil) .nil) .nil) .nil)
          .vnull [] ⟨0⟩ 100).nid)).data
      ((extractRefs (.obj 0 (.prop "a" (.obj 1 (.prop "x" (jsStr "1") .nil) .nil) .nil) .nil)
        .vnull [] ⟨0⟩ 100).data) = true ∧
    idOf (getPropA ((extractRefs
        (.obj 0 (.prop "a" (.obj 1 (.prop "x" (jsStr "1") .nil) .nil) .nil) .nil)
        .vnull [] ⟨0⟩ 100).data) (.fld "a")) = 101 ∧
    idOf (getPropA
      ((extractRefs (.obj 0 (.prop "a" (.obj 1 (.prop "x" (jsStr "1") .nil) .nil) .nil) .nil)
        ((extractRefs (.obj 0 (.prop "a" (.obj 1 (.prop "x" (jsStr "1") .nil) .nil) .nil) .nil)
          .vnull [] ⟨0⟩ 100).data) [] ⟨0⟩
        ((extractRefs (.obj 0 (.prop "a" (.obj 1 (.prop "x" (jsStr "1") .nil) .nil) .nil) .nil)
          .vnull [] ⟨0⟩ 100).nid)).data) (.fld "a")) = 103 ∧
    (101 : Nat) ≠ 103 :=
  ⟨rfl, rfl, rfl, by decide⟩

/-- C7: the snapshot normalizer returns `null` for an absent snapshot; a
container value (object or array) is returned *as the same container*
(same identifier, same enumerable fields/elements) decorated in place with
the four metadata fields attached non-enumerably, so field iteration does
not expose them while property access does; a scalar value is wrapped in a
fresh object exposing it under the reserved `$value` field together with
the four metadata fields.  The freshness hypotheses say the reserved names
are not already used, which the store's naming rules guarantee. -/
theorem claim7_normalize_snapshot (s : DataSnapshot) (nid : Nat) :
    (s.present = false → createRecordFromDatabaseSnapshot s nid = none)
    ∧ (∀ id fs hs, s.present = true → s.val = .obj id fs hs →
        (∀ k ∈ propKeys (metaProps s), lookupProp fs k = none) →
        (∀ k ∈ propKeys (metaProps s), lookupProp hs k = none) →
        createRecordFromDatabaseSnapshot s nid
            = some (.obj id fs (propsAppend hs (metaProps s)))
          ∧ fieldsOf (.obj id fs (propsAppend hs (metaProps s))) = fs
          ∧ idOf (.obj id fs (propsAppend hs (metaProps s))) = id
          ∧ getPropA (.obj id fs (propsAppend hs (metaProps s))) (.fld ".key") = s.key
          ∧ getPropA (.obj id fs (propsAppend hs (metaProps s))) (.fld ".priority")
              = s.priority
          ∧ getPropA (.obj id fs (propsAppend hs (metaProps s))) (.fld ".ref") = s.ref
          ∧ getPropA (.obj id fs (propsAppend hs (metaProps s))) (.fld ".size") = s.size)
    ∧ (∀ id es hs, s.present = true → s.val = .arr id es hs →
        (∀ k ∈ propKeys (metaProps s), lookupProp hs k = none) →
        createRecordFromDatabaseSnapshot s nid
            = some (.arr id es (propsAppend hs (metaProps s)))
          ∧ elemsOf (.arr id es (propsAppend hs (metaProps s))) = es
          ∧ idOf (.arr id es (propsAppend hs (metaProps s))) = id)
    ∧ (s.present = true → isObjectJS s.val = false →
        createRecordFromDatabaseSnapshot s nid
            = some (.obj nid (.prop "$value" s.val (metaProps s)) .nil)
          ∧ getPropA (.obj nid (.prop "$value" s.val (metaProps s)) .nil)
              (.fld "$value") = s.val
          ∧ getPropA (.obj nid (.prop "$value" s.val (metaProps s)) .nil)
              (.fld ".key") = s.key
          ∧ getPropA (.obj nid (.prop "$value" s.val (metaProps s)) .nil)
              (.fld ".priority") = s.priority
          ∧ getPropA (.obj nid (.prop "$value" s.val (metaProps s)) .nil)
              (.fld ".ref") = s.ref
          ∧ getPropA (.obj nid (.prop "$value" s.val (metaProps s)) .nil)
              (.fld ".size") = s.size) := by
  have hndmeta : nodupProps (metaProps s) = true := rfl
  refine ⟨?_, ?_, ?_, ?_⟩
  · intro h
    simp [createRecordFromDatabaseSnapshot, h]
  · intro id fs hs hpres hval hf hh
    have hrec : createRecordFromDatabaseSnapshot s nid
        = some (addHidden (.obj id fs hs) (metaProps s)) := by
      simp [createRecordFromDatabaseSnapshot, hpres, hval, isObjectJS]
    rw [addHidden_obj (metaProps s) id fs hs hndmeta hh] at hrec
    have hkey : lookupProp fs ".key" = none := hf ".key" (by simp [metaProps, propKeys])
    have hprio : lookupProp fs ".priority" = none :=
      hf ".priority" (by simp [metaProps, propKeys])
    have href : lookupProp fs ".ref" = none := hf ".ref" (by simp [metaProps, propKeys])
    have hsize : lookupProp fs ".size" = none := hf ".size" (by simp [metaProps, propKeys])
    have hhkey : lookupProp hs ".key" = none := hh ".key" (by simp [metaProps, propKeys])
    have hhprio : lookupProp hs ".priority" = none :=
      hh ".priority" (by simp [metaProps, propKeys])
    have hhref : lookupProp hs ".ref" = none := hh ".ref" (by simp [metaProps, propKeys])
    have hhsize : lookupProp hs ".size" = none := hh ".size" (by simp [metaProps, propKeys])
    refine ⟨hrec, rfl, rfl, ?_, ?_, ?_, ?_⟩
    all_goals
      show (match lookupProp fs _ with
            | some v => v
            | none => (lookupProp (propsAppend hs (metaProps s)) _).getD .vnull) = _
    · simp only [addrStr]; rw [hkey, lookupProp_propsAppend, hhkey]; rfl
    · simp only [addrStr]; rw [hprio, lookupProp_propsAppend, hhprio]; rfl
    · simp only [addrStr]; rw [href, lookupProp_propsAppend, hhref]; rfl
    · simp only [addrStr]; rw [hsize, lookupProp_propsAppend, hhsize]; rfl
  · intro id es hs hpres hval hh
    have hrec : createRecordFromDatabaseSnapshot s nid
        = some (addHidden (.arr id es hs) (metaProps s)) := by
      simp [createRecordFromDatabaseSnapshot, hpres, hval, isObjectJS]
    rw [addHidden_arr (metaProps s) id es hs hndmeta hh] at hrec
    exact ⟨hrec, rfl, rfl⟩
  · intro hpres hobj
    refine ⟨?_, rfl, rfl, rfl, rfl, rfl⟩
    simp [createRecordFromDatabaseSnapshot, hpres, hobj]

theorem claim7_witness :
    createRecordFromDatabaseSnapshot
        ⟨false, jsStr "v", jsStr "k", .vnull, jsStr "r", .scalar true "1"⟩ 9 = none ∧
    createRecordFromDatabaseSnapshot
        ⟨true, .obj 4 (.prop "name" (jsStr "ada") .nil) .nil, jsStr "k", .vnull,
          jsStr "r", .scalar true "1"⟩ 9
      = some (.obj 4 (.prop "name" (jsStr "ada") .nil)
          (.prop ".key" (jsStr "k") (.prop ".priority" .vnull
            (.prop ".ref" (jsStr "r") (.prop ".size" (.scalar true "1") .nil))))) ∧
    createRecordFromDatabaseSnapshot
        ⟨true, jsStr "v", jsStr "k", .vnull, jsStr "r", .scalar true "1"⟩ 9
      = some (.obj 9 (.prop "$value" (jsStr "v")
          (.prop ".key" (jsStr "k") (.prop ".priority" .vnull
            (.prop ".ref" (jsStr "r") (.prop ".size" (.scalar true "1") .nil))))) .nil) := by
  refine ⟨?_, ?_, ?_⟩
  · exact (claim7_normalize_snapshot
      ⟨false, jsStr "v", jsStr "k", .vnull, jsStr "r", .scalar true "1"⟩ 9).1 rfl
  · have h := ((claim7_normalize_snapshot
      ⟨true, .obj 4 (.prop "name" (jsStr "ada") .nil) .nil, jsStr "k", .vnull,
        jsStr "r", .scalar true "1"⟩ 9).2.1) 4 (.prop "name" (jsStr "ada") .nil) .nil
      rfl rfl (by intro k hk; fin_cases hk <;> rfl) (by intro k hk; rfl)
    exact h.1
  · have h := (claim7_normalize_snapshot
      ⟨true, jsStr "v", jsStr "k", .vnull, jsStr "r", .scalar true "1"⟩ 9).2.2.2 rfl rfl
    exact h.1

/-! ## Deep-equality infrastructure -/

mutual
theorem deepEq_refl : ∀ v, deepEq v v = true
  | .vnull => rfl
  | .scalar t s => by simp [deepEq]
  | .special s => by simp [deepEq]
  | .ref p c => by simp [deepEq]
  | .arr id es hs => by simp [deepEq, deepEqE_refl es, deepEqP_refl hs]
  | .obj id fs hs => by simp [deepEq, deepEqP_refl fs, deepEqP_refl hs]

theorem deepEqE_refl : ∀ E, deepEqE E E = true
  | .nil => rfl
  | .hole r => by simp [deepEqE, deepEqE_refl r]
  | .elem v r => by simp [deepEqE, deepEq_refl v, deepEqE_refl r]

theorem deepEqP_refl : ∀ P, deepEqP P P = true
  | .nil => rfl
  | .prop k v r => by simp [deepEqP, deepEq_refl v, deepEqP_refl r]
end

theorem freshKey_lookup (P : JSProps) (k : String) (h : freshKey P k = true) :
    lookupProp P k = none := by
  induction P using propsInd with
  | nil => rfl
  | prop k' v r ih =>
    simp only [freshKey, Bool.and_eq_true, bne_iff_ne] at h
    simp [lookupProp, h.1, ih h.2]

theorem freshKey_not_mem (P : JSProps) (k : String) (h : freshKey P k = true) :
    k ∉ propKeys P := by
  induction P using propsInd with
  | nil => simp [propKeys]
  | prop k' v r ih =>
    simp only [freshKey, Bool.and_eq_true, bne_iff_ne] at h
    simp only [propKeys, List.mem_cons, not_or]
    exact ⟨fun he => h.1 he.symm, ih h.2⟩

theorem deepEqE_of_pointwise (es : JSElems) : ∀ (E' : JSElems),
    elemsLen E' = elemsLen es →
    (∀ j, slotEq (elemAt? es j) (elemAt? E' j) = true) →
    deepEqE E' es = true := by
  induction es using elemsInd with
  | nil =>
    intro E' hlen _
    cases E' with
    | nil => rfl
    | hole r => simp [elemsLen] at hlen
    | elem w r => simp [elemsLen] at hlen
  | hole r ih =>
    intro E' hlen hslots
    cases E' with
    | nil => simp [elemsLen] at hlen
    | hole r' =>
      simp only [elemsLen, Nat.add_right_cancel_iff] at hlen
      show deepEqE r' r = true
      exact ih r' hlen (fun j => hslots (j + 1))
    | elem w r' =>
      have := hslots 0
      simp [elemAt?, slotEq] at this
  | elem v r ih =>
    intro E' hlen hslots
    cases E' with
    | nil => simp [elemsLen] at hlen
    | hole r' =>
      have := hslots 0
      simp [elemAt?, slotEq] at this
    | elem w r' =>
      simp only [elemsLen, Nat.add_right_cancel_iff] at hlen
      have h0 := hslots 0
      simp only [elemAt?, slotEq] at h0
      show (deepEq w v && deepEqE r' r) = true
      simp [h0, ih r' hlen (fun j => hslots (j + 1))]

/-- Walking a reference-free, well-formed value copies it: the output is
deep-equal to the input, `refs` is untouched, and the old document plays no
role.  Proven for the empty registry (so the fast path fills nothing), which
is the situation of the identity property. -/
theorem walk_copy (opts : ExtractOptions) :
    ∀ (fs : JSProps) (old : JSValue) (al : Bool) (path : String) (st : WalkState),
    wfP fs = true → refFreeP fs = true → nodupProps fs = true →
    ∀ (id : Nat) (F H : JSProps), st.data = .obj id F H →
    (∀ k ∈ propKeys fs, lookupProp F k = none) →
    ∃ L, (walkProps [] [] opts fs old al path st).data = .obj id (propsAppend F L) H
      ∧ (walkProps [] [] opts fs old al path st).refs = st.refs
      ∧ deepEqP L fs = true := by
  refine walkProps.induct ([] : List (String × SubEntry)) ([] : List (String × JSValue)) opts
    (fun fs old al path st =>
      wfP fs = true → refFreeP fs = true → nodupProps fs = true →
      ∀ (id : Nat) (F H : JSProps), st.data = .obj id F H →
      (∀ k ∈ propKeys fs, lookupProp F k = none) →
      ∃ L, (walkProps [] [] opts fs old al path st).data = .obj id (propsAppend F L) H
        ∧ (walkProps [] [] opts fs old al path st).refs = st.refs
        ∧ deepEqP L fs = true)
    (fun a v old al path st =>
      wfJS v = true → refFree v = true →
      ∃ w, (walkVal [] [] opts a v old al path st).data = setPropA st.data a w
        ∧ (walkVal [] [] opts a v old al path st).refs = st.refs
        ∧ deepEq w v = true)
    (fun i esW old al path st =>
      wfE esW = true → refFreeE esW = true →
      ∀ (id : Nat) (E : JSElems) (H : JSProps), st.data = .arr id E H →
      (∀ j, elemAt? E (i + j) = none) →
      i + elemsLen esW ≤ elemsLen E →
      ∃ E', (walkElems [] [] opts i esW old al path st).data = .arr id E' H
        ∧ (walkElems [] [] opts i esW old al path st).refs = st.refs
        ∧ elemsLen E' = elemsLen E
        ∧ (∀ m, m < i → elemAt? E' m = elemAt? E m)
        ∧ (∀ j, slotEq (elemAt? esW j) (elemAt? E' (i + j)) = true))
    ?_ ?_ ?_ ?_ ?_ ?_ ?_ ?_ ?_ ?_ ?_
  · intro a old al path st _ _
    exact ⟨.vnull, rfl, rfl, rfl⟩
  · intro a old al path st s _ _
    exact ⟨.special s, rfl, rfl, by simp [deepEq]⟩
  · intro a old al path st t s _ _
    exact ⟨.scalar t s, rfl, rfl, by simp [deepEq]⟩
  · intro a old al path st p conv _ hrf
    simp [refFree] at hrf
  · -- array value
    intro a old al path st oldVal vid es hs child0 IH hwf hrf
    simp only [wfJS, Bool.and_eq_true] at hwf
    simp only [refFree, Bool.and_eq_true] at hrf
    have hc : child0 = .arr st.nid (fastFill [] es) hs := by
      have hd : child0 = addHidden (.arr st.nid (fastFill [] es) .nil) hs := rfl
      rw [hd, addHidden_arr hs st.nid (fastFill [] es) .nil hwf.1 (fun k _ => rfl)]
      rfl
    obtain ⟨E', h1, h2, h3, h4, h5⟩ := IH hwf.2 hrf.1 st.nid (fastFill [] es) hs
      (by rw [hc]) (fun j => by rw [Nat.zero_add]; exact fastFill_nilIndex es j)
      (by rw [elemsLen_fastFill]; omega)
    refine ⟨.arr st.nid E' hs, ?_, ?_, ?_⟩
    · show setPropA st.data a (walkElems [] [] opts 0 es oldVal (al || !truthy oldVal)
        (path ++ addrStr a ++ ".") ⟨child0, st.refs, st.nid + 1⟩).data
        = setPropA st.data a (.arr st.nid E' hs)
      rw [h1]
    · show (walkElems [] [] opts 0 es oldVal (al || !truthy oldVal)
        (path ++ addrStr a ++ ".") ⟨child0, st.refs, st.nid + 1⟩).refs = st.refs
      rw [h2]
    · show deepEq (.arr st.nid E' hs) (.arr vid es hs) = true
      have hdE : deepEqE E' es = true := by
        apply deepEqE_of_pointwise es E'
        · rw [h3, elemsLen_fastFill]
        · intro j
          have := h5 j
          rwa [Nat.zero_add] at this
      simp [deepEq, hdE, deepEqP_refl hs]
  · -- object value
    intro a old al path st oldVal vid fs hs child0 IH hwf hrf
    simp only [wfJS, Bool.and_eq_true] at hwf
    simp only [refFree, Bool.and_eq_true] at hrf
    have hc : child0 = .obj st.nid .nil hs := by
      have hd : child0 = addHidden (.obj st.nid .nil .nil) hs := rfl
      rw [hd, addHidden_obj hs st.nid .nil .nil hwf.1.2 (fun k _ => rfl)]
      rfl
    obtain ⟨L, h1, h2, h3⟩ := IH hwf.2 hrf.1 hwf.1.1 st.nid .nil hs (by rw [hc])
      (fun k _ => rfl)
    refine ⟨.obj st.nid L hs, ?_, ?_, ?_⟩
    · show setPropA st.data a (walkProps [] [] opts fs oldVal al
        (path ++ addrStr a ++ ".") ⟨child0, st.refs, st.nid + 1⟩).data
        = setPropA st.data a (.obj st.nid L hs)
      rw [h1]
      rfl
    · show (walkProps [] [] opts fs oldVal al
        (path ++ addrStr a ++ ".") ⟨child0, st.refs, st.nid + 1⟩).refs = st.refs
      rw [h2]
    · show deepEq (.obj st.nid L hs) (.obj vid fs hs) = true
      simp [deepEq, h3, deepEqP_refl hs]
  · -- elems nil
    intro i old al path st _ _ id E H hdata hholes hlen
    refine ⟨E, hdata, rfl, rfl, fun m _ => rfl, fun j => ?_⟩
    show slotEq none (elemAt? E (i + j)) = true
    rw [hholes j]
    rfl
  · -- elems hole
    intro i rest old al path st IH hwf hrf id E H hdata hholes hlen
    simp only [elemsLen] at hlen
    obtain ⟨E', h1, h2, h3, h4, h5⟩ := IH hwf hrf id E H hdata
      (fun j => by have := hholes (j + 1); rwa [show i + (j + 1) = i + 1 + j by omega] at this)
      (by omega)
    refine ⟨E', h1, h2, h3, fun m hm => h4 m (by omega), fun j => ?_⟩
    cases j with
    | zero =>
      show slotEq none (elemAt? E' (i + 0)) = true
      rw [Nat.add_zero, h4 i (by omega), ← Nat.add_zero i, hholes 0]
      rfl
    | succ n =>
      have := h5 n
      rw [show i + 1 + n = i + (n + 1) by omega] at this
      exact this
  · -- elems elem
    intro i v rest old al path st IH1 IH2 hwf hrf id E H hdata hholes hlen
    simp only [wfE, Bool.and_eq_true] at hwf
    simp only [refFreeE, Bool.and_eq_true] at hrf
    simp only [elemsLen] at hlen
    obtain ⟨w, hw1, hw2, hw3⟩ := IH1 hwf.1 hrf.1
    rcases hst : walkVal [] [] opts (Addr.idx i) v old al path st with ⟨d1, r1, n1⟩
    rw [hst] at hw1 hw2
    simp only at hw1 hw2
    rw [hdata] at hw1
    simp only [setPropA] at hw1
    obtain ⟨E', h1, h2, h3, h4, h5⟩ := IH2 hwf.2 hrf.2 id (writeElem E i w) H
      (by rw [hst, hw1])
      (fun j => by
        rw [elemAt?_writeElem_ne E (i + 1 + j) i w (by omega)]
        have := hholes (j + 1)
        rwa [show i + (j + 1) = i + 1 + j by omega] at this)
      (by rw [elemsLen_writeElem E i w (by omega)]; omega)
    have hstep : walkElems [] [] opts i (.elem v rest) old al path st
        = walkElems [] [] opts (i + 1) rest old al path
            (walkVal [] [] opts (Addr.idx i) v old al path st) := rfl
    refine ⟨E', ?_, ?_, ?_, ?_, ?_⟩
    · rw [hstep]; exact h1
    · rw [hstep, h2, hst]; exact hw2
    · rw [h3, elemsLen_writeElem E i w (by omega)]
    · intro m hm
      rw [h4 m (by omega)]
      exact elemAt?_writeElem_ne E m i w (by omega)
    · intro j
      cases j with
      | zero =>
        show slotEq (some v) (elemAt? E' (i + 0)) = true
        rw [Nat.add_zero, h4 i (by omega), elemAt?_writeElem_self]
        exact hw3
      | succ n =>
        have := h5 n
        rw [show i + 1 + n = i + (n + 1) by omega] at this
        exact this
  · -- props nil
    intro old al path st _ _ _ id F H hdata _
    exact ⟨.nil, by rw [propsAppend_nil]; exact hdata, rfl, rfl⟩
  · -- props cons
    intro k v rest old al path st IH1 IH2 hwf hrf hnd id F H hdata hfresh
    simp only [wfP, Bool.and_eq_true] at hwf
    simp only [refFreeP, Bool.and_eq_true] at hrf
    simp only [nodupProps, Bool.and_eq_true] at hnd
    obtain ⟨w, hw1, hw2, hw3⟩ := IH1 hwf.1 hrf.1
    rcases hst : walkVal [] [] opts (Addr.fld k) v old al path st with ⟨d1, r1, n1⟩
    rw [hst] at hw1 hw2
    simp only at hw1 hw2
    rw [hdata] at hw1
    simp only [setPropA, addrStr] at hw1
    have hFk : lookupProp F k = none := hfresh k (by simp [propKeys])
    have hsingle : writeProp F k w = propsAppend F (.prop k w .nil) :=
      writeProp_fresh F k w hFk
    obtain ⟨L, h1, h2, h3⟩ := IH2 hwf.2 hrf.2 hnd.2 id (propsAppend F (.prop k w .nil)) H
      (by rw [hst, hw1, hsingle])
      (by
        intro k' hk'
        rw [lookupProp_propsAppend, hfresh k' (by simp [propKeys, hk'])]
        have hne : k ≠ k' := fun he => (freshKey_not_mem rest k hnd.1) (he ▸ hk')
        simp [lookupProp, hne])
    have hstep : walkProps [] [] opts (.prop k v rest) old al path st
        = walkProps [] [] opts rest old al path
            (walkVal [] [] opts (Addr.fld k) v old al path st) := rfl
    refine ⟨.prop k w L, ?_, ?_, ?_⟩
    · rw [hstep, h1, propsAppend_assoc]
      rfl
    · rw [hstep, h2, hst]
      exact hw2
    · simp [deepEqP, hw3, h3]

/-- C4: extracting a well-formed structured document with no reference-like
values anywhere, against itself as the old document and the empty registry,
returns data deep-equal to the document and an empty `refs` mapping. -/
theorem claim4_identity_without_refs (d : JSValue) (opts : ExtractOptions) (nid : Nat)
    (hpojo : isPOJO d = true) (hwf : wfJS d = true) (hrf : refFree d = true) :
    deepEq ((extractRefs d d [] opts nid).data) d = true
    ∧ (extractRefs d d [] opts nid).refs = [] := by
  cases d with
  | vnull => simp [isPOJO] at hpojo
  | scalar t s => simp [isPOJO] at hpojo
  | special s => simp [isPOJO] at hpojo
  | ref p c => simp [isPOJO] at hpojo
  | arr i es hs => simp [isPOJO] at hpojo
  | obj i0 fs hs =>
    simp only [wfJS, Bool.and_eq_true] at hwf
    simp only [refFree, Bool.and_eq_true] at hrf
    have hsbp : subsByPath ([] : List (String × SubEntry)) = [] := rfl
    have hst0 : addHidden (.obj nid .nil .nil) hs = .obj nid .nil hs := by
      rw [addHidden_obj hs nid .nil .nil hwf.1.2 (fun k _ => rfl)]
      rfl
    obtain ⟨L, h1, h2, h3⟩ := walk_copy opts fs (.obj i0 fs hs) false ""
      ⟨addHidden (.obj nid .nil .nil) hs, [], nid + 1⟩ hwf.2 hrf.1 hwf.1.1
      nid .nil hs (by rw [hst0]) (fun k _ => rfl)
    constructor
    · show deepEq ((walkProps [] (subsByPath []) opts fs (.obj i0 fs hs) false ""
        ⟨addHidden (.obj nid .nil .nil) hs, [], nid + 1⟩).data) (.obj i0 fs hs) = true
      rw [hsbp, h1]
      show deepEq (.obj nid (propsAppend .nil L) hs) (.obj i0 fs hs) = true
      simp [propsAppend, deepEq, h3, deepEqP_refl hs]
    · show (walkProps [] (subsByPath []) opts fs (.obj i0 fs hs) false ""
        ⟨addHidden (.obj nid .nil .nil) hs, [], nid + 1⟩).refs = []
      rw [hsbp, h2]

theorem claim4_witness :
    isPOJO (JSValue.obj 0 (.prop "name" (jsStr "a")
      (.prop "tags" (.arr 1 (.elem (jsStr "x") (.hole (.elem (.obj 2
        (.prop "n" (.scalar true "3") .nil) .nil) .nil))) .nil) .nil)) .nil) = true ∧
    wfJS (JSValue.obj 0 (.prop "name" (jsStr "a")
      (.prop "tags" (.arr 1 (.elem (jsStr "x") (.hole (.elem (.obj 2
        (.prop "n" (.scalar true "3") .nil) .nil) .nil))) .nil) .nil)) .nil) = true ∧
    refFree (JSValue.obj 0 (.prop "name" (jsStr "a")
      (.prop "tags" (.arr 1 (.elem (jsStr "x") (.hole (.elem (.obj 2
        (.prop "n" (.scalar true "3") .nil) .nil) .nil))) .nil) .nil)) .nil) = true ∧
    deepEq ((extractRefs (JSValue.obj 0 (.prop "name" (jsStr "a")
      (.prop "tags" (.arr 1 (.elem (jsStr "x") (.hole (.elem (.obj 2
        (.prop "n" (.scalar true "3") .nil) .nil) .nil))) .nil) .nil)) .nil)
      (JSValue.obj 0 (.prop "name" (jsStr "a")
      (.prop "tags" (.arr 1 (.elem (jsStr "x") (.hole (.elem (.obj 2
        (.prop "n" (.scalar true "3") .nil) .nil) .nil))) .nil) .nil)) .nil)
      [] ⟨0⟩ 50).data)
      (JSValue.obj 0 (.prop "name" (jsStr "a")
      (.prop "tags" (.arr 1 (.elem (jsStr "x") (.hole (.elem (.obj 2
        (.prop "n" (.scalar true "3") .nil) .nil) .nil))) .nil) .nil)) .nil) = true ∧
    (extractRefs (JSValue.obj 0 (.prop "name" (jsStr "a")
      (.prop "tags" (.arr 1 (.elem (jsStr "x") (.hole (.elem (.obj 2
        (.prop "n" (.scalar true "3") .nil) .nil) .nil))) .nil) .nil)) .nil)
      (JSValue.obj 0 (.prop "name" (jsStr "a")
      (.prop "tags" (.arr 1 (.elem (jsStr "x") (.hole (.elem (.obj 2
        (.prop "n" (.scalar true "3") .nil) .nil) .nil))) .nil) .nil)) .nil)
      [] ⟨0⟩ 50).refs = [] :=
  by
  have hmain := claim4_identity_without_refs (JSValue.obj 0 (.prop "name" (jsStr "a")
    (.prop "tags" (.arr 1 (.elem (jsStr "x") (.hole (.elem (.obj 2
      (.prop "n" (.scalar true "3") .nil) .nil) .nil))) .nil) .nil)) .nil) ⟨0⟩ 50 rfl rfl rfl
  exact ⟨rfl, rfl, rfl, hmain.1, hmain.2⟩

/-! ## Congruence of writes with respect to deep equality -/

theorem writeProp_cong (F1 : JSProps) : ∀ (F2 : JSProps) (k : String) (w2 w1 : JSValue),
    deepEqP F2 F1 = true → deepEq w2 w1 = true →
    deepEqP (writeProp F2 k w2) (writeProp F1 k w1) = true := by
  induction F1 using propsInd with
  | nil =>
    intro F2 k w2 w1 hF hw
    cases F2 with
    | nil => simp [writeProp, deepEqP, hw]
    | prop k2 v2 r2 => simp [deepEqP] at hF
  | prop k1 v1 r1 ih =>
    intro F2 k w2 w1 hF hw
    cases F2 with
    | nil => simp [deepEqP] at hF
    | prop k2 v2 r2 =>
      simp only [deepEqP, Bool.and_eq_true, beq_iff_eq] at hF
      obtain ⟨⟨hk, hv⟩, hr⟩ := hF
      subst hk
      by_cases he : k2 = k
      · simp [writeProp, he, deepEqP, hw, hr]
      · simp [writeProp, he, deepEqP, hv, ih r2 k w2 w1 hr hw]

theorem writeElem_pad_cong (n : Nat) (w2 w1 : JSValue) (hw : deepEq w2 w1 = true) :
    deepEqE (writeElem .nil n w2) (writeElem .nil n w1) = true := by
  induction n with
  | zero => simp [writeElem, deepEqE, hw]
  | succ m ih => simp [writeElem, deepEqE, ih]

theorem writeElem_cong (E1 : JSElems) : ∀ (E2 : JSElems) (i : Nat) (w2 w1 : JSValue),
    deepEqE E2 E1 = true → deepEq w2 w1 = true →
    deepEqE (writeElem E2 i w2) (writeElem E1 i w1) = true := by
  induction E1 using elemsInd with
  | nil =>
    intro E2 i w2 w1 hE hw
    cases E2 with
    | nil => exact writeElem_pad_cong i w2 w1 hw
    | hole r2 => simp [deepEqE] at hE
    | elem v2 r2 => simp [deepEqE] at hE
  | hole r1 ih =>
    intro E2 i w2 w1 hE hw
    cases E2 with
    | nil => simp [deepEqE] at hE
    | hole r2 =>
      simp only [deepEqE] at hE
      cases i with
      | zero => simp [writeElem, deepEqE, hw, hE]
      | succ n => simp [writeElem, deepEqE, ih r2 n w2 w1 hE hw]
    | elem v2 r2 => simp [deepEqE] at hE
  | elem v1 r1 ih =>
    intro E2 i w2 w1 hE hw
    cases E2 with
    | nil => simp [deepEqE] at hE
    | hole r2 => simp [deepEqE] at hE
    | elem v2 r2 =>
      simp only [deepEqE, Bool.and_eq_true] at hE
      cases i with
      | zero => simp [writeElem, deepEqE, hw, hE.2]
      | succ n => simp [writeElem, deepEqE, hE.1, ih r2 n w2 w1 hE.2 hw]

theorem setPropA_cong (d1 d2 : JSValue) (a : Addr) (w2 w1 : JSValue)
    (hd : deepEq d2 d1 = true) (hw : deepEq w2 w1 = true) :
    deepEq (setPropA d2 a w2) (setPropA d1 a w1) = true := by
  cases d1 with
  | vnull => cases d2 <;> simp_all [deepEq, setPropA]
  | scalar t s => cases d2 <;> simp_all [deepEq, setPropA]
  | special s => cases d2 <;> simp_all [deepEq, setPropA]
  | ref p c => cases d2 <;> simp_all [deepEq, setPropA]
  | arr i1 E1 H1 =>
    cases d2 with
    | arr i2 E2 H2 =>
      simp only [deepEq, Bool.and_eq_true] at hd
      cases a with
      | idx i =>
        show deepEq (.arr i2 (writeElem E2 i w2) H2) (.arr i1 (writeElem E1 i w1) H1) = true
        simp [deepEq, writeElem_cong E1 E2 i w2 w1 hd.1 hw, hd.2]
      | fld k =>
        show deepEq
          (match canonIdx? k with
           | some i => JSValue.arr i2 (writeElem E2 i w2) H2
           | none => JSValue.arr i2 E2 H2)
          (match canonIdx? k with
           | some i => JSValue.arr i1 (writeElem E1 i w1) H1
           | none => JSValue.arr i1 E1 H1) = true
        cases canonIdx? k with
        | some i => simp [deepEq, writeElem_cong E1 E2 i w2 w1 hd.1 hw, hd.2]
        | none => simp [deepEq, hd.1, hd.2]
    | vnull => simp [deepEq] at hd
    | scalar t s => simp [deepEq] at hd
    | special s => simp [deepEq] at hd
    | ref p c => simp [deepEq] at hd
    | obj i2 F2 H2 => simp [deepEq] at hd
  | obj i1 F1 H1 =>
    cases d2 with
    | obj i2 F2 H2 =>
      simp only [deepEq, Bool.and_eq_true] at hd
      show deepEq (.obj i2 (writeProp F2 (addrStr a) w2) H2)
        (.obj i1 (writeProp F1 (addrStr a) w1) H1) = true
      simp [deepEq, writeProp_cong F1 F2 (addrStr a) w2 w1 hd.1 hw, hd.2]
    | vnull => simp [deepEq] at hd
    | scalar t s => simp [deepEq] at hd
    | special s => simp [deepEq] at hd
    | ref p c => simp [deepEq] at hd
    | arr i2 E2 H2 => simp [deepEq] at hd

theorem getPropA_setPropA_obj (id : Nat) (F H : JSProps) (a : Addr) (w : JSValue) :
    getPropA (setPropA (.obj id F H) a w) a = w := by
  show (match lookupProp (writeProp F (addrStr a) w) (addrStr a) with
        | some v => v
        | none => (lookupProp H (addrStr a)).getD .vnull) = w
  rw [lookupProp_writeProp_self]

theorem getPropA_setPropA_arr_idx (id : Nat) (E : JSElems) (H : JSProps) (i : Nat)
    (w : JSValue) :
    getPropA (setPropA (.arr id E H) (.idx i) w) (.idx i) = w := by
  show ((elemAt? (writeElem E i w) i).getD .vnull) = w
  rw [elemAt?_writeElem_self]
  rfl

theorem getPropA_setPropA_same (d : JSValue) (a : Addr) (w : JSValue)
    (h : (∃ j G K, d = .obj j G K) ∨ (∃ n, a = .idx n ∧ ∃ j D K, d = .arr j D K)) :
    getPropA (setPropA d a w) a = w := by
  rcases h with ⟨j, G, K, hd⟩ | ⟨n, ha, j, D, K, hd⟩
  · rw [hd]
    exact getPropA_setPropA_obj j G K a w
  · rw [ha, hd]
    exact getPropA_setPropA_arr_idx j D K n w

/-- Value-level idempotence of the walk: running the walk a second time over
the same entries, with the first run's final output as the (non-aliased) old
document and a deep-equal accumulator, produces a deep-equal output.  Every
old-document read of the second run lands exactly on what the first run
wrote at that position. -/
theorem walk_idem (subs : List (String × SubEntry))
    (sbp : List (String × JSValue)) (opts : ExtractOptions) :
    ∀ (fs : JSProps) (old1 : JSValue) (al1 : Bool) (path : String) (st1 : WalkState),
    ∀ (st2 : WalkState) (old2 : JSValue),
    wfP fs = true → nodupProps fs = true →
    ∀ (i1 : Nat) (F1 H1 : JSProps) (i2 : Nat) (F2 H2 : JSProps),
    st1.data = .obj i1 F1 H1 → st2.data = .obj i2 F2 H2 →
    deepEqP F2 F1 = true → deepEqP H2 H1 = true →
    (∀ a : Addr, getPropA old2 a
      = getPropA (walkProps subs sbp opts fs old1 al1 path st1).data a) →
    deepEq (walkProps subs sbp opts fs old2 false path st2).data
           (walkProps subs sbp opts fs old1 al1 path st1).data = true := by
  refine walkProps.induct subs sbp opts
    (fun fs old1 al1 path st1 => ∀ (st2 : WalkState) (old2 : JSValue),
      wfP fs = true → nodupProps fs = true →
      ∀ (i1 : Nat) (F1 H1 : JSProps) (i2 : Nat) (F2 H2 : JSProps),
      st1.data = .obj i1 F1 H1 → st2.data = .obj i2 F2 H2 →
      deepEqP F2 F1 = true → deepEqP H2 H1 = true →
      (∀ a : Addr, getPropA old2 a
        = getPropA (walkProps subs sbp opts fs old1 al1 path st1).data a) →
      deepEq (walkProps subs sbp opts fs old2 false path st2).data
             (walkProps subs sbp opts fs old1 al1 path st1).data = true)
    (fun a v old1 al1 path st1 => ∀ (st2 : WalkState) (old2 : JSValue),
      wfJS v = true →
      deepEq st2.data st1.data = true →
      ((∃ j1 G1 K1, st1.data = .obj j1 G1 K1)
        ∨ (∃ n, a = .idx n ∧ ∃ j1 D1 K1, st1.data = .arr j1 D1 K1)) →
      getPropA old2 a = getPropA (walkVal subs sbp opts a v old1 al1 path st1).data a →
      deepEq (walkVal subs sbp opts a v old2 false path st2).data
             (walkVal subs sbp opts a v old1 al1 path st1).data = true)
    (fun i esW old1 al1 path st1 => ∀ (st2 : WalkState) (old2 : JSValue),
      wfE esW = true →
      ∀ (i1 : Nat) (E1 : JSElems) (H1 : JSProps) (i2 : Nat) (E2 : JSElems) (H2 : JSProps),
      st1.data = .arr i1 E1 H1 → st2.data = .arr i2 E2 H2 →
      deepEqE E2 E1 = true → deepEqP H2 H1 = true →
      (∀ a : Addr, getPropA old2 a
        = getPropA (walkElems subs sbp opts i esW old1 al1 path st1).data a) →
      deepEq (walkElems subs sbp opts i esW old2 false path st2).data
             (walkElems subs sbp opts i esW old1 al1 path st1).data = true)
    ?_ ?_ ?_ ?_ ?_ ?_ ?_ ?_ ?_ ?_ ?_
  · -- null
    intro a old1 al1 path st1 st2 old2 _ hdeq _ _
    exact setPropA_cong st1.data st2.data a .vnull .vnull hdeq rfl
  · -- special
    intro a old1 al1 path st1 s st2 old2 _ hdeq _ _
    exact setPropA_cong st1.data st2.data a (.special s) (.special s) hdeq (deepEq_refl _)
  · -- scalar
    intro a old1 al1 path st1 t s st2 old2 _ hdeq _ _
    exact setPropA_cong st1.data st2.data a (.scalar t s) (.scalar t s) hdeq (deepEq_refl _)
  · -- reference
    intro a old1 al1 path st1 p conv st2 old2 _ hdeq hwr hsync
    have hval1 : getPropA (walkVal subs sbp opts a (.ref p conv) old1 al1 path st1).data a
        = (if hasKey subs (path ++ addrStr a) = true
           then (if al1 = true then getPropA st1.data a else getPropA old1 a)
           else jsStr p) :=
      getPropA_setPropA_same st1.data a _ hwr
    show deepEq
      (setPropA st2.data a
        (if hasKey subs (path ++ addrStr a) = true then getPropA old2 a else jsStr p))
      (setPropA st1.data a
        (if hasKey subs (path ++ addrStr a) = true
         then (if al1 = true then getPropA st1.data a else getPropA old1 a)
         else jsStr p)) = true
    apply setPropA_cong st1.data st2.data a _ _ hdeq
    by_cases hb : hasKey subs (path ++ addrStr a) = true
    · rw [if_pos hb, if_pos hb, hsync, hval1, if_pos hb]
      exact deepEq_refl _
    · rw [if_neg hb, if_neg hb]
      exact deepEq_refl _
  · -- array value
    intro a old1 al1 path st1 oldVal1 vid es hs child01 IH st2 old2 hwf hdeq hwr hsync
    simp only [wfJS, Bool.and_eq_true] at hwf
    have hch1 : child01 = JSValue.arr st1.nid (fastFill sbp es) hs := by
      have hd : child01 = addHidden (.arr st1.nid (fastFill sbp es) .nil) hs := rfl
      rw [hd, addHidden_arr hs st1.nid (fastFill sbp es) .nil hwf.1 (fun k _ => rfl)]
      rfl
    have hch2 : addHidden (JSValue.arr st2.nid (fastFill sbp es) .nil) hs
        = JSValue.arr st2.nid (fastFill sbp es) hs := by
      rw [addHidden_arr hs st2.nid (fastFill sbp es) .nil hwf.1 (fun k _ => rfl)]
      rfl
    have hval1 : getPropA (walkVal subs sbp opts a (.arr vid es hs) old1 al1 path st1).data a
        = (walkElems subs sbp opts 0 es oldVal1 (al1 || !truthy oldVal1)
            (path ++ addrStr a ++ ".") ⟨child01, st1.refs, st1.nid + 1⟩).data :=
      getPropA_setPropA_same st1.data a _ hwr
    have hold2 : getPropA old2 a
        = (walkElems subs sbp opts 0 es oldVal1 (al1 || !truthy oldVal1)
            (path ++ addrStr a ++ ".") ⟨child01, st1.refs, st1.nid + 1⟩).data :=
      hsync.trans hval1
    obtain ⟨E1', hE1, _, _, _, _⟩ := walkElems_arr_char subs sbp opts es 0 oldVal1
      (al1 || !truthy oldVal1) (path ++ addrStr a ++ ".") st1.nid (fastFill sbp es) hs
      st1.refs (st1.nid + 1)
    have hE1shape : (walkElems subs sbp opts 0 es oldVal1 (al1 || !truthy oldVal1)
        (path ++ addrStr a ++ ".") ⟨child01, st1.refs, st1.nid + 1⟩).data
        = .arr st1.nid E1' hs := by
      rw [hch1]
      exact hE1
    have htruthy : truthy (getPropA old2 a) = true := by
      rw [hold2, hE1shape]
      rfl
    have hal2 : (false || !truthy (getPropA old2 a)) = false := by
      rw [htruthy]
      rfl
    show deepEq
      (setPropA st2.data a
        (walkElems subs sbp opts 0 es (getPropA old2 a)
          (false || !truthy (getPropA old2 a)) (path ++ addrStr a ++ ".")
          ⟨addHidden (.arr st2.nid (fastFill sbp es) .nil) hs, st2.refs, st2.nid + 1⟩).data)
      (setPropA st1.data a
        (walkElems subs sbp opts 0 es oldVal1 (al1 || !truthy oldVal1)
          (path ++ addrStr a ++ ".") ⟨child01, st1.refs, st1.nid + 1⟩).data) = true
    rw [hal2, hch2]
    apply setPropA_cong st1.data st2.data a _ _ hdeq
    exact IH ⟨.arr st2.nid (fastFill sbp es) hs, st2.refs, st2.nid + 1⟩ (getPropA old2 a)
      hwf.2 st1.nid (fastFill sbp es) hs st2.nid (fastFill sbp es) hs hch1 rfl
      (deepEqE_refl _) (deepEqP_refl _) (fun a' => by rw [hold2])
  · -- object value
    intro a old1 al1 path st1 oldVal1 vid fs hs child01 IH st2 old2 hwf hdeq hwr hsync
    simp only [wfJS, Bool.and_eq_true] at hwf
    have hch1 : child01 = JSValue.obj st1.nid .nil hs := by
      have hd : child01 = addHidden (.obj st1.nid .nil .nil) hs := rfl
      rw [hd, addHidden_obj hs st1.nid .nil .nil hwf.1.2 (fun k _ => rfl)]
      rfl
    have hch2 : addHidden (JSValue.obj st2.nid .nil .nil) hs
        = JSValue.obj st2.nid .nil hs := by
      rw [addHidden_obj hs st2.nid .nil .nil hwf.1.2 (fun k _ => rfl)]
      rfl
    have hval1 : getPropA (walkVal subs sbp opts a (.obj vid fs hs) old1 al1 path st1).data a
        = (walkProps subs sbp opts fs oldVal1 al1
            (path ++ addrStr a ++ ".") ⟨child01, st1.refs, st1.nid + 1⟩).data :=
      getPropA_setPropA_same st1.data a _ hwr
    have hold2 : getPropA old2 a
        = (walkProps subs sbp opts fs oldVal1 al1
            (path ++ addrStr a ++ ".") ⟨child01, st1.refs, st1.nid + 1⟩).data :=
      hsync.trans hval1
    show deepEq
      (setPropA st2.data a
        (walkProps subs sbp opts fs (getPropA old2 a) false (path ++ addrStr a ++ ".")
          ⟨addHidden (.obj st2.nid .nil .nil) hs, st2.refs, st2.nid + 1⟩).data)
      (setPropA st1.data a
        (walkProps subs sbp opts fs oldVal1 al1
          (path ++ addrStr a ++ ".") ⟨child01, st1.refs, st1.nid + 1⟩).data) = true
    rw [hch2]
    apply setPropA_cong st1.data st2.data a _ _ hdeq
    exact IH ⟨.obj st2.nid .nil hs, st2.refs, st2.nid + 1⟩ (getPropA old2 a)
      hwf.2 hwf.1.1 st1.nid .nil hs st2.nid .nil hs hch1 rfl rfl (deepEqP_refl _)
      (fun a' => by rw [hold2])
  · -- elems nil
    intro i old1 al1 path st1 st2 old2 _ i1 E1 H1 i2 E2 H2 hsh1 hsh2 hdE hdP _
    show deepEq st2.data st1.data = true
    rw [hsh1, hsh2]
    simp [deepEq, hdE, hdP]
  · -- elems hole
    intro i rest old1 al1 path st1 IH st2 old2 hwf i1 E1 H1 i2 E2 H2 hsh1 hsh2 hdE hdP hsync
    exact IH st2 old2 hwf i1 E1 H1 i2 E2 H2 hsh1 hsh2 hdE hdP hsync
  · -- elems elem
    intro i v rest old1 al1 path st1 IH1 IH2 st2 old2 hwf i1 E1 H1 i2 E2 H2 hsh1 hsh2
      hdE hdP hsync
    simp only [wfE, Bool.and_eq_true] at hwf
    obtain ⟨w1, hw1⟩ := walkVal_data_shape subs sbp opts (.idx i) v old1 al1 path st1
    have hw1' : (walkVal subs sbp opts (.idx i) v old1 al1 path st1).data
        = .arr i1 (writeElem E1 i w1) H1 := by
      rw [hw1, hsh1]
      rfl
    obtain ⟨w2, hw2⟩ := walkVal_data_shape subs sbp opts (.idx i) v old2 false path st2
    have hw2' : (walkVal subs sbp opts (.idx i) v old2 false path st2).data
        = .arr i2 (writeElem E2 i w2) H2 := by
      rw [hw2, hsh2]
      rfl
    rcases hst1 : walkVal subs sbp opts (.idx i) v old1 al1 path st1 with ⟨d1, r1, n1⟩
    have hd1 : d1 = .arr i1 (writeElem E1 i w1) H1 := by
      rw [← hw1', hst1]
    obtain ⟨E1'', hF1, hFm, _, _, _⟩ := walkElems_arr_char subs sbp opts rest (i + 1)
      old1 al1 path i1 (writeElem E1 i w1) H1 r1 n1
    have hsyncHead : getPropA old2 (.idx i)
        = getPropA (walkVal subs sbp opts (.idx i) v old1 al1 path st1).data (.idx i) := by
      have hfin : getPropA (walkElems subs sbp opts i (.elem v rest) old1 al1 path st1).data
          (.idx i) = w1 := by
        show getPropA (walkElems subs sbp opts (i + 1) rest old1 al1 path
          (walkVal subs sbp opts (.idx i) v old1 al1 path st1)).data (.idx i) = w1
        rw [hst1]
        have hacc : (⟨d1, r1, n1⟩ : WalkState)
            = ⟨.arr i1 (writeElem E1 i w1) H1, r1, n1⟩ := by
          rw [hd1]
        rw [hacc, hF1]
        show (elemAt? E1'' i).getD .vnull = w1
        rw [hFm i (by omega), elemAt?_writeElem_self]
        rfl
      rw [hsync (.idx i), hfin, hst1]
      show w1 = getPropA d1 (.idx i)
      rw [hd1]
      show w1 = (elemAt? (writeElem E1 i w1) i).getD .vnull
      rw [elemAt?_writeElem_self]
      rfl
    have hhead := IH1 st2 old2 hwf.1
      (by rw [hsh1, hsh2]; simp [deepEq, hdE, hdP])
      (Or.inr ⟨i, rfl, i1, E1, H1, hsh1⟩) hsyncHead
    rw [hw2', hw1'] at hhead
    simp only [deepEq, Bool.and_eq_true] at hhead
    show deepEq
      (walkElems subs sbp opts (i + 1) rest old2 false path
        (walkVal subs sbp opts (.idx i) v old2 false path st2)).data
      (walkElems subs sbp opts (i + 1) rest old1 al1 path
        (walkVal subs sbp opts (.idx i) v old1 al1 path st1)).data = true
    exact IH2 (walkVal subs sbp opts (.idx i) v old2 false path st2) old2 hwf.2
      i1 (writeElem E1 i w1) H1 i2 (writeElem E2 i w2) H2 hw1' hw2' hhead.1 hdP
      (fun a' => hsync a')
  · -- props nil
    intro old1 al1 path st1 st2 old2 _ _ i1 F1 H1 i2 F2 H2 hsh1 hsh2 hdF hdP _
    show deepEq st2.data st1.data = true
    rw [hsh1, hsh2]
    simp [deepEq, hdF, hdP]
  · -- props cons
    intro k v rest old1 al1 path st1 IH1 IH2 st2 old2 hwf hnd i1 F1 H1 i2 F2 H2 hsh1 hsh2
      hdF hdP hsync
    simp only [wfP, Bool.and_eq_true] at hwf
    simp only [nodupProps, Bool.and_eq_true] at hnd
    obtain ⟨w1, hw1⟩ := walkVal_data_shape subs sbp opts (.fld k) v old1 al1 path st1
    have hw1' : (walkVal subs sbp opts (.fld k) v old1 al1 path st1).data
        = .obj i1 (writeProp F1 k w1) H1 := by
      rw [hw1, hsh1]
      rfl
    obtain ⟨w2, hw2⟩ := walkVal_data_shape subs sbp opts (.fld k) v old2 false path st2
    have hw2' : (walkVal subs sbp opts (.fld k) v old2 false path st2).data
        = .obj i2 (writeProp F2 k w2) H2 := by
      rw [hw2, hsh2]
      rfl
    rcases hst1 : walkVal subs sbp opts (.fld k) v old1 al1 path st1 with ⟨d1, r1, n1⟩
    have hd1 : d1 = .obj i1 (writeProp F1 k w1) H1 := by
      rw [← hw1', hst1]
    obtain ⟨F1'', hF1, hFm⟩ := walkProps_obj_frame subs sbp opts rest old1 al1 path
      i1 (writeProp F1 k w1) H1 r1 n1
    have hsyncHead : getPropA old2 (.fld k)
        = getPropA (walkVal subs sbp opts (.fld k) v old1 al1 path st1).data (.fld k) := by
      have hfin : getPropA (walkProps subs sbp opts (.prop k v rest) old1 al1 path st1).data
          (.fld k) = w1 := by
        show getPropA (walkProps subs sbp opts rest old1 al1 path
          (walkVal subs sbp opts (.fld k) v old1 al1 path st1)).data (.fld k) = w1
        rw [hst1]
        have hacc : (⟨d1, r1, n1⟩ : WalkState)
            = ⟨.obj i1 (writeProp F1 k w1) H1, r1, n1⟩ := by
          rw [hd1]
        rw [hacc, hF1]
        show (match lookupProp F1'' k with
              | some w => w
              | none => (lookupProp H1 k).getD .vnull) = w1
        rw [hFm k (freshKey_not_mem rest k hnd.1), lookupProp_writeProp_self]
      rw [hsync (.fld k), hfin, hst1]
      show w1 = getPropA d1 (.fld k)
      rw [hd1]
      show w1 = (match lookupProp (writeProp F1 k w1) k with
            | some w => w
            | none => (lookupProp H1 k).getD .vnull)
      rw [lookupProp_writeProp_self]
    have hhead := IH1 st2 old2 hwf.1
      (by rw [hsh1, hsh2]; simp [deepEq, hdF, hdP])
      (Or.inl ⟨i1, F1, H1, hsh1⟩) hsyncHead
    rw [hw2', hw1'] at hhead
    simp only [deepEq, Bool.and_eq_true] at hhead
    show deepEq
      (walkProps subs sbp opts rest old2 false path
        (walkVal subs sbp opts (.fld k) v old2 false path st2)).data
      (walkProps subs sbp opts rest old1 al1 path
        (walkVal subs sbp opts (.fld k) v old1 al1 path st1)).data = true
    exact IH2 (walkVal subs sbp opts (.fld k) v old2 false path st2) old2 hwf.2 hnd.2
      i1 (writeProp F1 k w1) H1 i2 (writeProp F2 k w2) H2 hw1' hw2' hhead.1 hdP
      (fun a' => hsync a')

/-- C5, amended: idempotence holds at the level of values, not of object
identity.  Extracting a well-formed plain-object document a second time,
with the first extraction's data as the old document, returns data
deep-equal to the first extraction's data — every old-document read of the
second run lands on what the first run wrote — but the containers of each
run are fresh allocations (see the counterexample), so only value identity,
not instance identity, is stable. -/
theorem claim5_amended_value_idempotence
    (i0 : Nat) (fs hs : JSProps) (subs : List (String × SubEntry))
    (opts : ExtractOptions) (old1 : JSValue) (n1 n2 : Nat)
    (hwf : wfJS (.obj i0 fs hs) = true) :
    deepEq (extractRefs (.obj i0 fs hs)
        ((extractRefs (.obj i0 fs hs) old1 subs opts n1).data) subs opts n2).data
      ((extractRefs (.obj i0 fs hs) old1 subs opts n1).data) = true := by
  simp only [wfJS, Bool.and_eq_true] at hwf
  have hch1 : addHidden (JSValue.obj n1 .nil .nil) hs = JSValue.obj n1 .nil hs := by
    rw [addHidden_obj hs n1 .nil .nil hwf.1.2 (fun k _ => rfl)]
    rfl
  have hch2 : addHidden (JSValue.obj n2 .nil .nil) hs = JSValue.obj n2 .nil hs := by
    rw [addHidden_obj hs n2 .nil .nil hwf.1.2 (fun k _ => rfl)]
    rfl
  show deepEq (walkProps subs (subsByPath subs) opts fs
      ((walkProps subs (subsByPath subs) opts fs old1 false ""
        ⟨addHidden (.obj n1 .nil .nil) hs, [], n1 + 1⟩).data) false ""
      ⟨addHidden (.obj n2 .nil .nil) hs, [], n2 + 1⟩).data
    ((walkProps subs (subsByPath subs) opts fs old1 false ""
      ⟨addHidden (.obj n1 .nil .nil) hs, [], n1 + 1⟩).data) = true
  exact walk_idem subs (subsByPath subs) opts fs old1 false ""
    ⟨addHidden (.obj n1 .nil .nil) hs, [], n1 + 1⟩
    ⟨addHidden (.obj n2 .nil .nil) hs, [], n2 + 1⟩
    ((walkProps subs (subsByPath subs) opts fs old1 false ""
      ⟨addHidden (.obj n1 .nil .nil) hs, [], n1 + 1⟩).data)
    hwf.2 hwf.1.1 n1 .nil hs n2 .nil hs hch1 hch2 rfl (deepEqP_refl hs)
    (fun a => rfl)

theorem claim5_amended_witness :
    wfJS (.obj 0 (.prop "a" (jsStr "1") .nil) .nil) = true ∧
    deepEq (extractRefs (.obj 0 (.prop "a" (jsStr "1") .nil) .nil)
        ((extractRefs (.obj 0 (.prop "a" (jsStr "1") .nil) .nil) .vnull [] ⟨0⟩ 10).data)
        [] ⟨0⟩ 20).data
      ((extractRefs (.obj 0 (.prop "a" (jsStr "1") .nil) .nil) .vnull [] ⟨0⟩ 10).data)
      = true :=
  ⟨rfl, claim5_amended_value_idempotence 0 (.prop "a" (jsStr "1") .nil) .nil [] ⟨0⟩
    .vnull 10 20 rfl⟩
